import Mathlib

/-!
# Portfolio backtester — verification of the analytics engine and dashboard

A shallow embedding of the Portfolio_Backtester repository.  The repository
ships the React dashboard (App.jsx in two revisions) and a README; the
analytics engine itself (series aligner, rebalancing simulator, metrics
calculator, efficient-frontier optimizer) lives behind the FastAPI boundary
and is not part of the source tree here, so those components are modelled
from the specification, as marked on each definition.  The dashboard-side
definitions (row-list editing, request guards, presentation filters) are
translated directly from App.jsx.

All prices, weights and portfolio values are embedded as exact rationals.
Real-valued square roots and fractional powers that the engine evaluates in
floating point (annualized volatility, CAGR) are abstracted: either the
squared quantity is carried exactly, or the already-computed scalar is a
field of the record, so that every guard and comparison the claims are
about is stated over the exact values.
-/

namespace Backtester

/-- An asset line of a portfolio: ticker, target weight (possibly
un-normalized), and annual total-expense-ratio. -/
structure AssetSpec where
  ticker : String
  weight : ℚ
  ter : ℚ
deriving Repr, DecidableEq

/-- Rebalance frequency: a closed enumeration. -/
inductive RebalanceFreq where
  | none
  | monthly
  | quarterly
  | yearly
deriving Repr, DecidableEq

/-- The engine error taxonomy of §7 of the specification. -/
inductive EngineError where
  | invalidWeight
  | insufficientData
  | invalidConfig
  | insufficientUniverse
deriving Repr, DecidableEq

/-- Backtest configuration.  Dates are abstracted to aligned-calendar
indices; see `AlignedDate`. -/
structure BacktestConfig where
  initialInvestment : ℚ
  frequency : RebalanceFreq
  transactionCost : ℚ
  reinvestDividends : Bool
deriving Repr, DecidableEq

/-! ## Weight normalization (C5)

Modelled from the spec: the engine's single normalization step ("weights are
normalized so they sum to 1.0 before simulation; if the raw sum is 0 the
portfolio is invalid", "`InvalidWeightError` (weights sum to 0, or a
negative weight supplied)").  The backend that performs it is not in the
source tree. -/

/-- Raw (possibly un-normalized) weight sum of an asset list. -/
def rawWeightSum (assets : List AssetSpec) : ℚ :=
  (assets.map (fun a => a.weight)).sum

/-- Modelled from the spec: the engine's weight-normalization step.
Rejects a negative weight or a zero raw sum with `invalidWeight`;
otherwise divides every weight by the raw sum. -/
def normalizeWeights (assets : List AssetSpec) : Except EngineError (List AssetSpec) :=
  if assets.any (fun a => a.weight < 0) then .error .invalidWeight
  else if rawWeightSum assets = 0 then .error .invalidWeight
  else .ok (assets.map (fun a => { a with weight := a.weight / rawWeightSum assets }))

/-! ## Dashboard row lists (C10, C4, C9)

Translated from App.jsx (both revisions keep the same handlers):
`handleRemoveField` splices out one row only when the list has more than one
entry; `handleAddField` appends a blank row; `handleInputChange` overwrites
one field of one row; `loadPreset` replaces the whole list by a preset. -/

/-- One editable dashboard row: ticker name, weight and TER as the
string-typed form fields App.jsx keeps in state. -/
structure EtfRow where
  name : String
  weight : String
  ter : String
deriving Repr, DecidableEq

/-- From App.jsx `handleRemoveField`: splice the row at `index` out of the
list, but only when the list has more than one entry. -/
def handleRemoveField (list : List EtfRow) (index : Nat) : List EtfRow :=
  if list.length > 1 then list.eraseIdx index else list

/-- From App.jsx `handleAddField`: append a blank row. -/
def handleAddField (list : List EtfRow) : List EtfRow :=
  list ++ [{ name := "", weight := "", ter := "0.00" }]

/-- A single editable field of a row. -/
inductive RowField where
  | name
  | weight
  | ter
deriving Repr, DecidableEq

/-- Overwrite one named field of a row. -/
def setRowField (row : EtfRow) (field : RowField) (value : String) : EtfRow :=
  match field with
  | .name => { row with name := value }
  | .weight => { row with weight := value }
  | .ter => { row with ter := value }

/-- From App.jsx `handleInputChange`: overwrite one field of the row at
`index` (the JS mutates `list[index][name] = value` on a copy). -/
def handleInputChange (list : List EtfRow) (index : Nat) (field : RowField)
    (value : String) : List EtfRow :=
  match list.get? index with
  | Option.none => list
  | Option.some row => list.set index (setRowField row field value)

/-- The preset keys of App.jsx `portfolioPresets`. -/
inductive PresetName where
  | conservative
  | balanced
  | aggressive
  | threeFund
deriving Repr, DecidableEq

/-- From App.jsx `portfolioPresets`: the four preset portfolios. -/
def portfolioPresets : PresetName → List EtfRow
  | .conservative =>
      [{ name := "BND", weight := "0.6", ter := "0.03" },
       { name := "VTI", weight := "0.3", ter := "0.03" },
       { name := "VXUS", weight := "0.1", ter := "0.08" }]
  | .balanced =>
      [{ name := "VTI", weight := "0.6", ter := "0.03" },
       { name := "VXUS", weight := "0.3", ter := "0.08" },
       { name := "BND", weight := "0.1", ter := "0.03" }]
  | .aggressive =>
      [{ name := "VTI", weight := "0.7", ter := "0.03" },
       { name := "VXUS", weight := "0.2", ter := "0.08" },
       { name := "VB", weight := "0.1", ter := "0.05" }]
  | .threeFund =>
      [{ name := "VTI", weight := "0.6", ter := "0.03" },
       { name := "VXUS", weight := "0.3", ter := "0.08" },
       { name := "BND", weight := "0.1", ter := "0.03" }]

/-- From App.jsx `loadPreset`: replace the list by the chosen preset. -/
def loadPreset (p : PresetName) (_list : List EtfRow) : List EtfRow :=
  portfolioPresets p

/-- The operations the dashboard can perform on a row list. -/
inductive RowOp where
  | remove (index : Nat)
  | add
  | edit (index : Nat) (field : RowField) (value : String)
  | preset (p : PresetName)
deriving Repr, DecidableEq

/-- Apply one dashboard row operation. -/
def applyRowOp (op : RowOp) (list : List EtfRow) : List EtfRow :=
  match op with
  | .remove i => handleRemoveField list i
  | .add => handleAddField list
  | .edit i f v => handleInputChange list i f v
  | .preset p => loadPreset p list

/-! ## Presentation of optimal portfolios (C9)

Translated from App.jsx (part_000, optimal-portfolio table): the allocation
cell renders `Object.entries(portfolio.weights)` filtered by
`weight >= 0.05`, while the `portfolios` state keeps the full weight
vectors. -/

/-- One selected optimal portfolio as returned in a frontier response. -/
structure OptimalPortfolio where
  name : String
  annualReturn : ℚ
  annualVol : ℚ
  sharpe : ℚ
  weights : List (String × ℚ)
deriving Repr, DecidableEq

/-- The small display threshold of the allocation cell (5%). -/
def displayThreshold : ℚ := 5 / 100

/-- From App.jsx: the entries of the allocation cell, i.e. the weight
entries at or above the display threshold. -/
def displayedAllocation (p : OptimalPortfolio) : List (String × ℚ) :=
  p.weights.filter (fun aw => displayThreshold ≤ aw.2)

/-- One rendered table row: the presentation view of a portfolio. -/
structure RenderedRow where
  name : String
  allocation : List (String × ℚ)
deriving Repr, DecidableEq

/-- Render one optimal portfolio into its table row. -/
def renderRow (p : OptimalPortfolio) : RenderedRow :=
  { name := p.name, allocation := displayedAllocation p }

/-- Rendering the results table: the caller keeps the portfolio list, the
view shows the rendered rows. -/
def presentPortfolios (ps : List OptimalPortfolio) :
    List OptimalPortfolio × List RenderedRow :=
  (ps, ps.map renderRow)

/-! ## Efficient-frontier request guard (C4) and optimizer (C8)

The universe guard is translated from App.jsx `runEfficientFrontier`: the
submitted list is the ETF rows with a non-empty name, and fewer than two of
them aborts with an error message before any request is made.  The
optimizer behind the endpoint is modelled from the spec (§4.4): sampling on
the simplex, per-sample return/volatility/Sharpe, and selection of the
maximum-Sharpe and minimum-volatility samples.  The real-valued square root
of the quadratic form is abstracted as the `sqrtFn` parameter. -/

/-- From App.jsx `runEfficientFrontier`: the tickers actually submitted are
the rows with a non-empty name. -/
def frontierUniverse (etfs : List EtfRow) : List String :=
  (etfs.map (fun e => e.name)).filter (fun n => n ≠ "")

/-- Outcome of clicking the frontier button: either a client-side rejection
(no request sent) or a request for the given universe. -/
inductive FrontierSubmit where
  | rejected (msg : String)
  | requested (tickers : List String)
deriving Repr, DecidableEq

/-- From App.jsx `runEfficientFrontier`: fewer than two named rows is
rejected client-side with an error message; otherwise the request goes out. -/
def frontierClick (etfs : List EtfRow) : FrontierSubmit :=
  if (frontierUniverse etfs).length < 2 then
    .rejected "Sono necessari almeno 2 ETF per la frontiera efficiente"
  else .requested (frontierUniverse etfs)

/-- Dot product of two rational vectors. -/
def dot (xs ys : List ℚ) : ℚ :=
  (List.zipWith (fun a b => a * b) xs ys).sum

/-- Matrix-vector product, rows as lists. -/
def matVec (m : List (List ℚ)) (v : List ℚ) : List ℚ :=
  m.map (fun row => dot row v)

/-- Normalize a sampled draw vector to sum to 1 (simplex sampling,
spec §4.4 step 2). -/
def normalizeVec (v : List ℚ) : List ℚ :=
  v.map (fun x => x / v.sum)

/-- One sampled portfolio of the optimizer: weight vector and its derived
statistics.  `sharpe` is `⊥` exactly when the volatility is zero — the
sentinel of the zero-volatility guard. -/
structure FrontierSample where
  weights : List ℚ
  annualReturn : ℚ
  annualVol : ℚ
  sharpe : WithBot ℚ
deriving DecidableEq

/-- Modelled from the spec (§4.4 step 3, optimizer not in the source tree):
evaluate one sampled weight vector.  `sqrtFn` abstracts the real square
root applied to the quadratic form. -/
def mkSample (sqrtFn : ℚ → ℚ) (means : List ℚ) (cov : List (List ℚ))
    (rf : ℚ) (draws : List ℚ) : FrontierSample :=
  let w := normalizeVec draws
  let r := dot w means
  let vol := sqrtFn (dot w (matVec cov w))
  { weights := w, annualReturn := r, annualVol := vol,
    sharpe := if vol = 0 then ⊥ else ((r - rf) / vol : ℚ) }

/-- Modelled from the spec (§4.4 step 4): the maximum-Sharpe sample of a
run, found by a fold over the complete sample list. -/
def selectMaxSharpe : List FrontierSample → Option FrontierSample
  | [] => Option.none
  | s :: rest =>
      Option.some (rest.foldl (fun best t => if best.sharpe < t.sharpe then t else best) s)

/-- Modelled from the spec (§4.4 step 4): the minimum-volatility sample. -/
def selectMinVol : List FrontierSample → Option FrontierSample
  | [] => Option.none
  | s :: rest =>
      Option.some (rest.foldl (fun best t => if t.annualVol < best.annualVol then t else best) s)

/-- The optimizer output: the full sampled cloud and the selected samples. -/
structure FrontierResult where
  samples : List FrontierSample
  maxSharpe : Option FrontierSample
  minVol : Option FrontierSample
deriving DecidableEq

/-- Modelled from the spec (§4.4 and §7, optimizer not in the source tree):
the frontier computation.  A universe of fewer than 2 assets is rejected
with `insufficientUniverse` before any sample is drawn; otherwise every
draw row is evaluated and the selections are made over the complete set. -/
def runEfficientFrontier (sqrtFn : ℚ → ℚ) (tickers : List String)
    (means : List ℚ) (cov : List (List ℚ)) (rf : ℚ)
    (drawRows : List (List ℚ)) : Except EngineError FrontierResult :=
  if tickers.length < 2 then .error .insufficientUniverse
  else
    let samples := drawRows.map (mkSample sqrtFn means cov rf)
    .ok { samples := samples,
          maxSharpe := selectMaxSharpe samples,
          minVol := selectMinVol samples }


/-! ## Theorems: dashboard and optimizer claims -/

/-- Helper: dividing every weight by a scalar divides the raw sum. -/
theorem rawWeightSum_map_div (assets : List AssetSpec) (S : ℚ) :
    rawWeightSum (assets.map (fun a => { a with weight := a.weight / S })) =
      rawWeightSum assets / S := by
  unfold rawWeightSum
  rw [List.map_map]
  have hcmp : ((fun a : AssetSpec => a.weight) ∘
      fun a : AssetSpec => { a with weight := a.weight / S }) =
      fun a : AssetSpec => a.weight * S⁻¹ := by
    funext a
    simp [div_eq_mul_inv]
  rw [hcmp, div_eq_mul_inv]
  simpa using List.sum_map_mul_right assets (fun a : AssetSpec => a.weight) S⁻¹

/-- Helper: a fold keeping the larger-Sharpe sample dominates its
accumulator and every list element. -/
theorem foldl_maxSharpe_dominates (l : List FrontierSample) (acc : FrontierSample) :
    acc.sharpe ≤ (l.foldl (fun best t => if best.sharpe < t.sharpe then t else best) acc).sharpe ∧
    ∀ s ∈ l, s.sharpe ≤ (l.foldl (fun best t => if best.sharpe < t.sharpe then t else best) acc).sharpe := by
  induction l generalizing acc with
  | nil => exact ⟨le_refl _, by simp⟩
  | cons x xs ih =>
    simp only [List.foldl_cons]
    have h1 : acc.sharpe ≤ (if acc.sharpe < x.sharpe then x else acc).sharpe := by
      split
      · exact le_of_lt (by assumption)
      · exact le_refl _
    have h2 : x.sharpe ≤ (if acc.sharpe < x.sharpe then x else acc).sharpe := by
      split
      · exact le_refl _
      · exact le_of_not_lt (by assumption)
    refine ⟨le_trans h1 (ih _).1, ?_⟩
    intro s hs
    rcases List.mem_cons.mp hs with rfl | hmem
    · exact le_trans h2 (ih _).1
    · exact (ih _).2 s hmem

/-- Helper: the sample selected by `selectMaxSharpe` dominates the list. -/
theorem selectMaxSharpe_spec (l : List FrontierSample) (b : FrontierSample)
    (h : selectMaxSharpe l = Option.some b) :
    ∀ s ∈ l, s.sharpe ≤ b.sharpe := by
  cases l with
  | nil => exact Option.noConfusion h
  | cons x xs =>
    simp only [selectMaxSharpe, Option.some.injEq] at h
    intro s hs
    rw [← h]
    rcases List.mem_cons.mp hs with rfl | hmem
    · exact (foldl_maxSharpe_dominates xs s).1
    · exact (foldl_maxSharpe_dominates xs x).2 s hmem

/-- Claim C5: an asset list with non-negative weights and a nonzero raw sum
is normalized so the weights sum exactly to 1; a zero raw sum or a negative
weight is rejected with `invalidWeight`. -/
theorem C5_weights_normalized_or_rejected (assets : List AssetSpec) :
    ((∀ a ∈ assets, 0 ≤ a.weight) → rawWeightSum assets ≠ 0 →
      ∃ out, normalizeWeights assets = .ok out ∧ rawWeightSum out = 1) ∧
    (rawWeightSum assets = 0 ∨ (∃ a ∈ assets, a.weight < 0) →
      normalizeWeights assets = .error .invalidWeight) := by
  constructor
  · intro hnn hs
    have hany : ¬ (assets.any (fun a => a.weight < 0) = true) := by
      simp only [List.any_eq_true, decide_eq_true_eq, not_exists]
      intro a
      rintro ⟨ha, hlt⟩
      exact absurd hlt (not_lt.mpr (hnn a ha))
    refine ⟨assets.map (fun a => { a with weight := a.weight / rawWeightSum assets }), ?_, ?_⟩
    · unfold normalizeWeights
      rw [if_neg hany, if_neg hs]
    · rw [rawWeightSum_map_div]
      exact div_self hs
  · intro h
    rcases h with hs0 | ⟨a, ha, hneg⟩
    · unfold normalizeWeights
      by_cases h1 : assets.any (fun a => a.weight < 0) = true
      · rw [if_pos h1]
      · rw [if_neg h1, if_pos hs0]
    · unfold normalizeWeights
      have h1 : assets.any (fun a => a.weight < 0) = true := by
        simp only [List.any_eq_true, decide_eq_true_eq]
        exact ⟨a, ha, hneg⟩
      rw [if_pos h1]

/-- Witness for C5 at concrete inputs: the default dashboard portfolio
normalizes to sum 1, and a negative weight is rejected. -/
theorem C5_weights_normalized_or_rejected_witness :
    (∃ out, normalizeWeights
        [{ ticker := "VTI", weight := 3/5, ter := 3/100 },
         { ticker := "VXUS", weight := 2/5, ter := 2/25 }] = .ok out ∧
      rawWeightSum out = 1) ∧
    normalizeWeights [{ ticker := "A", weight := 1/2, ter := 0 },
      { ticker := "B", weight := -(1/2), ter := 0 }] = .error .invalidWeight :=
  ⟨(C5_weights_normalized_or_rejected _).1
      (by
        intro a ha
        rcases List.mem_cons.mp ha with rfl | ha2
        · norm_num
        · rcases List.mem_cons.mp ha2 with rfl | ha3
          · norm_num
          · cases ha3)
      (by norm_num [rawWeightSum]),
   (C5_weights_normalized_or_rejected _).2
      (Or.inr ⟨{ ticker := "B", weight := -(1/2), ter := 0 },
        by simp, by norm_num⟩)⟩

/-- Claim C10: every dashboard row operation preserves non-emptiness of the
row list, and removing from a single-row list is a no-op. -/
theorem C10_row_list_stays_nonempty (list : List EtfRow) (h : list ≠ []) (op : RowOp) :
    applyRowOp op list ≠ [] ∧
    (list.length = 1 → ∀ i, handleRemoveField list i = list) := by
  constructor
  · cases op with
    | remove i =>
      show handleRemoveField list i ≠ []
      unfold handleRemoveField
      by_cases hl : list.length > 1
      · rw [if_pos hl]
        apply List.ne_nil_of_length_pos
        rw [List.length_eraseIdx]
        split <;> omega
      · rw [if_neg hl]
        exact h
    | add =>
      show handleAddField list ≠ []
      simp [handleAddField]
    | edit i f v =>
      show handleInputChange list i f v ≠ []
      unfold handleInputChange
      cases hget : list.get? i with
      | none => exact h
      | some row =>
        apply List.ne_nil_of_length_pos
        rw [List.length_set]
        exact List.length_pos.mpr h
    | preset p =>
      show loadPreset p list ≠ []
      cases p <;> simp [loadPreset, portfolioPresets]
  · intro h1 i
    unfold handleRemoveField
    rw [if_neg (by omega)]

/-- Witness for C10 at a concrete input: removing the only benchmark row is
a no-op and leaves the list non-empty. -/
theorem C10_row_list_stays_nonempty_witness :
    applyRowOp (.remove 0) [{ name := "VT", weight := "1.0", ter := "0.08" }] ≠ [] ∧
    handleRemoveField [{ name := "VT", weight := "1.0", ter := "0.08" }] 0 =
      [{ name := "VT", weight := "1.0", ter := "0.08" }] :=
  ⟨(C10_row_list_stays_nonempty [{ name := "VT", weight := "1.0", ter := "0.08" }]
      (List.cons_ne_nil _ _) (.remove 0)).1,
   (C10_row_list_stays_nonempty [{ name := "VT", weight := "1.0", ter := "0.08" }]
      (List.cons_ne_nil _ _) (.remove 0)).2 rfl 0⟩

/-- Claim C9: rendering the optimal-portfolio table filters sub-threshold
weights out of the presentation view only; the portfolio list the caller
holds, with its full weight vectors, is unchanged, and every displayed
entry comes from the underlying vector. -/
theorem C9_display_filter_is_presentation_only (ps : List OptimalPortfolio) :
    (presentPortfolios ps).1 = ps ∧
    (∀ p ∈ ps, ∀ e ∈ p.weights,
      (e ∈ (renderRow p).allocation ↔ displayThreshold ≤ e.2)) ∧
    (∀ p ∈ ps, ∀ e ∈ (renderRow p).allocation, e ∈ p.weights) := by
  refine ⟨rfl, ?_, ?_⟩
  · intro p _ e he
    simp [renderRow, displayedAllocation, List.mem_filter, he]
  · intro p _ e he
    exact (List.mem_filter.mp he).1

/-- A concrete optimal portfolio with one sub-threshold component, used to
witness C9. -/
def demoPortfolio : OptimalPortfolio :=
  { name := "Max Sharpe", annualReturn := 1/10, annualVol := 1/5, sharpe := 1/2,
    weights := [("VTI", 99/100), ("BND", 1/100)] }

/-- Witness for C9 at a concrete portfolio: a 1% component is omitted from
the view yet retained in the caller-held portfolio list. -/
theorem C9_display_filter_is_presentation_only_witness :
    (presentPortfolios [demoPortfolio]).1 = [demoPortfolio] ∧
    (("BND", (1/100 : ℚ)) ∈ (renderRow demoPortfolio).allocation ↔
      displayThreshold ≤ (1/100 : ℚ)) :=
  ⟨(C9_display_filter_is_presentation_only _).1,
   (C9_display_filter_is_presentation_only [demoPortfolio]).2.1 demoPortfolio
      (by simp) ("BND", (1/100 : ℚ)) (by simp [demoPortfolio])⟩

/-- Claim C4: a frontier request over fewer than 2 assets fails with
`insufficientUniverse` independently of the random draws (no sampling is
performed), a universe of at least 2 assets never raises that error, and
the dashboard rejects a sub-2 universe client-side before any request. -/
theorem C4_universe_guard (sqrtFn : ℚ → ℚ) (tickers : List String)
    (means : List ℚ) (cov : List (List ℚ)) (rf : ℚ)
    (drawRows drawRows2 : List (List ℚ)) :
    (tickers.length < 2 →
      runEfficientFrontier sqrtFn tickers means cov rf drawRows =
        .error .insufficientUniverse ∧
      runEfficientFrontier sqrtFn tickers means cov rf drawRows =
        runEfficientFrontier sqrtFn tickers means cov rf drawRows2) ∧
    (2 ≤ tickers.length →
      runEfficientFrontier sqrtFn tickers means cov rf drawRows ≠
        .error .insufficientUniverse) ∧
    (∀ etfs : List EtfRow,
      (frontierUniverse etfs).length < 2 ↔
        ∃ msg, frontierClick etfs = .rejected msg) := by
  refine ⟨?_, ?_, ?_⟩
  · intro hlen
    unfold runEfficientFrontier
    rw [if_pos hlen, if_pos hlen]
    exact ⟨rfl, rfl⟩
  · intro hlen hc
    unfold runEfficientFrontier at hc
    rw [if_neg (by omega)] at hc
    exact Except.noConfusion hc
  · intro etfs
    by_cases hlen : (frontierUniverse etfs).length < 2
    · constructor
      · intro _
        refine ⟨"Sono necessari almeno 2 ETF per la frontiera efficiente", ?_⟩
        unfold frontierClick
        rw [if_pos hlen]
      · intro _
        exact hlen
    · constructor
      · intro hc
        exact absurd hc hlen
      · rintro ⟨msg, hmsg⟩
        unfold frontierClick at hmsg
        rw [if_neg hlen] at hmsg
        exact FrontierSubmit.noConfusion hmsg

/-- Witness for C4 at concrete inputs: one asset is rejected independently
of the draws, and two assets are not rejected. -/
theorem C4_universe_guard_witness :
    (runEfficientFrontier (fun q => q) ["VTI"] [1/10] [[1]] 0 [[1]] =
        .error .insufficientUniverse ∧
      runEfficientFrontier (fun q => q) ["VTI"] [1/10] [[1]] 0 [[1]] =
        runEfficientFrontier (fun q => q) ["VTI"] [1/10] [[1]] 0 []) ∧
    runEfficientFrontier (fun q => q) ["VTI", "VXUS"] [1/10, 1/5] [[1, 0], [0, 1]] 0 [[1]] ≠
      .error .insufficientUniverse :=
  ⟨(C4_universe_guard (fun q => q) ["VTI"] [1/10] [[1]] 0 [[1]] []).1 (by decide),
   (C4_universe_guard (fun q => q) ["VTI", "VXUS"] [1/10, 1/5] [[1, 0], [0, 1]] 0
      [[1]] []).2.1 (by decide)⟩

/-- Claim C8: in any optimizer run, the sample selected as maximum-Sharpe
has a Sharpe ratio at least that of every sampled portfolio of the run. -/
theorem C8_maxSharpe_dominates_run (sqrtFn : ℚ → ℚ) (tickers : List String)
    (means : List ℚ) (cov : List (List ℚ)) (rf : ℚ)
    (drawRows : List (List ℚ)) (res : FrontierResult) (best : FrontierSample)
    (hrun : runEfficientFrontier sqrtFn tickers means cov rf drawRows = .ok res)
    (hbest : res.maxSharpe = Option.some best) :
    ∀ s ∈ res.samples, s.sharpe ≤ best.sharpe := by
  unfold runEfficientFrontier at hrun
  split at hrun
  · exact Except.noConfusion hrun
  · rw [Except.ok.injEq] at hrun
    subst hrun
    exact selectMaxSharpe_spec _ _ hbest

/-- A small concrete optimizer run used to witness C8. -/
def demoRun : Except EngineError FrontierResult :=
  runEfficientFrontier (fun q => q) ["A", "B"] [1/10, 1/5] [[1, 0], [0, 1]] 0
    [[1, 1], [1, 3]]

/-- The result of the demo run. -/
def demoRes : FrontierResult :=
  demoRun.toOption.getD { samples := [], maxSharpe := Option.none, minVol := Option.none }

/-- The maximum-Sharpe sample of the demo run. -/
def demoBest : FrontierSample :=
  demoRes.maxSharpe.getD { weights := [], annualReturn := 0, annualVol := 0, sharpe := ⊥ }

/-- Witness for C8: in the demo run, the selected sample dominates the
first sampled portfolio. -/
theorem C8_maxSharpe_dominates_run_witness :
    (demoRes.samples.getD 0
      { weights := [], annualReturn := 0, annualVol := 0, sharpe := ⊥ }).sharpe ≤
      demoBest.sharpe :=
  C8_maxSharpe_dominates_run (fun q => q) ["A", "B"] [1/10, 1/5] [[1, 0], [0, 1]] 0
    [[1, 1], [1, 3]] demoRes demoBest rfl rfl _
    (List.mem_cons_self _ _)

/-! ## SeriesAligner (C6)

Modelled from the spec (§4.1, the aligner is not in the source tree): given
a mapping from ticker to price series and a window, the aligner returns the
common trading dates (set intersection within the window) and each
ticker's prices restricted to those dates; it fails with
`insufficientData` when the intersection has fewer than 2 dates or a
requested ticker has no series.  Dates are abstracted to natural-number
trading-day identifiers. -/

/-- A per-ticker price series: ordered (date, adjusted close) points. -/
structure PriceSeries where
  points : List (Nat × ℚ)
deriving Repr, DecidableEq

/-- The trading dates of a series. -/
def seriesDates (s : PriceSeries) : List Nat :=
  s.points.map Prod.fst

/-- Look a ticker up in the ticker-to-series mapping. -/
def lookupSeries (db : List (String × PriceSeries)) (t : String) : Option PriceSeries :=
  (db.find? (fun e => e.1 = t)).map Prod.snd

/-- Gather the series of every requested ticker; fails when any ticker has
no series at all. -/
def gatherSeries (db : List (String × PriceSeries)) :
    List String → Option (List (String × PriceSeries))
  | [] => Option.some []
  | t :: rest =>
      match lookupSeries db t with
      | Option.none => Option.none
      | Option.some s =>
          match gatherSeries db rest with
          | Option.none => Option.none
          | Option.some acc => Option.some ((t, s) :: acc)

/-- The trading dates of one series inside the window. -/
def windowDates (s : PriceSeries) (lo hi : Nat) : List Nat :=
  (seriesDates s).filter (fun d => lo ≤ d ∧ d ≤ hi)

/-- The ordered common dates: the first series' window dates kept only when
present in every other series. -/
def commonDates (series : List PriceSeries) (lo hi : Nat) : List Nat :=
  match series with
  | [] => []
  | s :: rest => (windowDates s lo hi).filter (fun d => rest.all (fun r => d ∈ seriesDates r))

/-- Restrict a series' points to the given dates. -/
def restrictSeries (s : PriceSeries) (dates : List Nat) : List (Nat × ℚ) :=
  s.points.filter (fun p => p.1 ∈ dates)

/-- Modelled from the spec (§4.1): the aligner. -/
def alignSeries (tickers : List String) (db : List (String × PriceSeries))
    (lo hi : Nat) : Except EngineError (List Nat × List (String × List (Nat × ℚ))) :=
  match gatherSeries db tickers with
  | Option.none => .error .insufficientData
  | Option.some series =>
      if (commonDates (series.map Prod.snd) lo hi).length < 2 then
        .error .insufficientData
      else
        .ok (commonDates (series.map Prod.snd) lo hi,
          series.map (fun e => (e.1, restrictSeries e.2 (commonDates (series.map Prod.snd) lo hi))))

/-- The specified intersection: a date belongs to the aligned calendar iff
it lies in the window and is a trading date of every requested series. -/
def interWindow (tickers : List String) (db : List (String × PriceSeries))
    (lo hi : Nat) (d : Nat) : Prop :=
  lo ≤ d ∧ d ≤ hi ∧
    ∀ t ∈ tickers, ∀ s, lookupSeries db t = Option.some s → d ∈ seriesDates s

/-- Helper: gathering fails exactly when some requested ticker has no
series in the mapping. -/
theorem gatherSeries_none_iff (db : List (String × PriceSeries)) (tickers : List String) :
    gatherSeries db tickers = Option.none ↔
      ∃ t ∈ tickers, lookupSeries db t = Option.none := by
  induction tickers with
  | nil => simp [gatherSeries]
  | cons t rest ih =>
    cases hl : lookupSeries db t with
    | none =>
      simp only [gatherSeries, hl, List.mem_cons]
      exact iff_of_true trivial ⟨t, Or.inl rfl, hl⟩
    | some s =>
      cases hg : gatherSeries db rest with
      | none =>
        simp only [gatherSeries, hl, hg, List.mem_cons]
        constructor
        · intro _
          obtain ⟨u, hu, hun⟩ := ih.mp hg
          exact ⟨u, Or.inr hu, hun⟩
        · intro _
          trivial
      | some acc =>
        simp only [gatherSeries, hl, hg, List.mem_cons]
        constructor
        · intro hc
          exact Option.noConfusion hc
        · rintro ⟨u, hu | hu, hun⟩
          · rw [hu] at hun
            rw [hl] at hun
            exact Option.noConfusion hun
          · have hr := ih.mpr ⟨u, hu, hun⟩
            rw [hg] at hr
            exact Option.noConfusion hr

/-- Helper: a successful gather pairs every requested ticker with its
looked-up series, in order. -/
theorem gatherSeries_sound (db : List (String × PriceSeries)) (tickers : List String)
    (series : List (String × PriceSeries))
    (h : gatherSeries db tickers = Option.some series) :
    series.map Prod.fst = tickers ∧
      ∀ e ∈ series, lookupSeries db e.1 = Option.some e.2 := by
  induction tickers generalizing series with
  | nil =>
    simp only [gatherSeries, Option.some.injEq] at h
    subst h
    exact ⟨rfl, by simp⟩
  | cons t rest ih =>
    cases hl : lookupSeries db t with
    | none =>
      simp only [gatherSeries, hl] at h
      exact Option.noConfusion h
    | some s =>
      cases hg : gatherSeries db rest with
      | none =>
        simp only [gatherSeries, hl, hg] at h
        exact Option.noConfusion h
      | some acc =>
        simp only [gatherSeries, hl, hg, Option.some.injEq] at h
        subst h
        obtain ⟨hmap, hlk⟩ := ih acc hg
        refine ⟨by simp [hmap], ?_⟩
        intro e he
        rcases List.mem_cons.mp he with rfl | he2
        · exact hl
        · exact hlk e he2

/-- Helper: membership in the common dates of a non-empty series list is
window membership plus membership in every series. -/
theorem mem_commonDates (l : List PriceSeries) (hl : l ≠ []) (lo hi d : Nat) :
    d ∈ commonDates l lo hi ↔
      (lo ≤ d ∧ d ≤ hi ∧ ∀ s ∈ l, d ∈ seriesDates s) := by
  cases l with
  | nil => exact absurd rfl hl
  | cons s rest =>
    simp only [commonDates, windowDates, List.mem_filter, List.all_eq_true,
      decide_eq_true_eq, List.mem_cons]
    constructor
    · rintro ⟨⟨hds, hw1, hw2⟩, hall⟩
      refine ⟨hw1, hw2, ?_⟩
      intro r hr
      rcases hr with rfl | hr
      · exact hds
      · exact hall r hr
    · rintro ⟨h1, h2, hall⟩
      exact ⟨⟨hall s (Or.inl rfl), h1, h2⟩, fun r hr => hall r (Or.inr hr)⟩

/-- Helper: the common dates inherit no-duplication from the first series. -/
theorem nodup_commonDates (s : PriceSeries) (rest : List PriceSeries) (lo hi : Nat)
    (h : (seriesDates s).Nodup) : (commonDates (s :: rest) lo hi).Nodup := by
  simp only [commonDates, windowDates]
  exact (h.filter _).filter _

/-- Helper: a duplicate-free list has at least two entries exactly when it
has two distinct members. -/
theorem two_le_length_iff_two_distinct (l : List Nat) (hnd : l.Nodup) :
    2 ≤ l.length ↔ ∃ a b, a ≠ b ∧ a ∈ l ∧ b ∈ l := by
  rcases l with _ | ⟨x, _ | ⟨y, t⟩⟩
  · simp
  · constructor
    · intro h
      simp only [List.length_singleton] at h
      omega
    · rintro ⟨a, b, hne, ha, hb⟩
      simp only [List.mem_singleton] at ha hb
      subst ha
      subst hb
      exact absurd rfl hne
  · constructor
    · intro _
      refine ⟨x, y, ?_, by simp, by simp⟩
      intro hxy
      subst hxy
      exact (List.nodup_cons.mp hnd).1 (List.mem_cons_self _ _)
    · intro _
      simp only [List.length_cons]
      omega

/-- Helper: a series returned by lookup is a series of the mapping. -/
theorem lookupSeries_mem (db : List (String × PriceSeries)) (t : String)
    (s : PriceSeries) (h : lookupSeries db t = Option.some s) :
    ∃ e ∈ db, e.2 = s := by
  unfold lookupSeries at h
  cases hf : db.find? (fun e => e.1 = t) with
  | none =>
    rw [hf] at h
    exact Option.noConfusion h
  | some e =>
    rw [hf] at h
    simp only [Option.map_some', Option.some.injEq] at h
    exact ⟨e, List.mem_of_find?_eq_some hf, h⟩

/-- Helper: for a successful gather, the computed common dates are exactly
the specified intersection and carry no duplicates. -/
theorem commonDates_spec (tickers : List String) (db : List (String × PriceSeries))
    (lo hi : Nat) (series : List (String × PriceSeries))
    (htick : tickers ≠ [])
    (hnodup : ∀ e ∈ db, (seriesDates e.2).Nodup)
    (hg : gatherSeries db tickers = Option.some series) :
    (∀ d, d ∈ commonDates (series.map Prod.snd) lo hi ↔ interWindow tickers db lo hi d) ∧
      (commonDates (series.map Prod.snd) lo hi).Nodup := by
  obtain ⟨hmap, hlk⟩ := gatherSeries_sound db tickers series hg
  have hsn : series ≠ [] := by
    intro hc
    rw [hc] at hmap
    exact htick hmap.symm
  have hsn2 : series.map Prod.snd ≠ [] := by
    intro hc
    exact hsn (List.map_eq_nil_iff.mp hc)
  constructor
  · intro d
    rw [mem_commonDates _ hsn2, interWindow]
    constructor
    · rintro ⟨h1, h2, hall⟩
      refine ⟨h1, h2, ?_⟩
      intro t ht s hs
      rw [← hmap] at ht
      obtain ⟨e, he, hefst⟩ := List.mem_map.mp ht
      rw [← hefst] at hs
      rw [hlk e he] at hs
      rw [← Option.some.injEq _ _ |>.mp hs]
      exact hall e.2 (List.mem_map.mpr ⟨e, he, rfl⟩)
    · rintro ⟨h1, h2, hall⟩
      refine ⟨h1, h2, ?_⟩
      intro s hs
      obtain ⟨e, he, hesnd⟩ := List.mem_map.mp hs
      have ht : e.1 ∈ tickers := by
        rw [← hmap]
        exact List.mem_map.mpr ⟨e, he, rfl⟩
      rw [← hesnd]
      exact hall e.1 ht e.2 (hlk e he)
  · obtain ⟨e, rest, rfl⟩ := List.exists_cons_of_ne_nil hsn
    rw [List.map_cons]
    apply nodup_commonDates
    obtain ⟨p, hp, hps⟩ := lookupSeries_mem db e.1 e.2 (hlk e (List.mem_cons_self _ _))
    rw [← hps]
    exact hnodup p hp

/-- Claim C6: the aligner returns exactly the window intersection of every
requested series' trading dates, with each ticker's prices restricted to
those dates, and fails with `insufficientData` exactly when some requested
ticker has no series or the intersection has fewer than two dates. -/
theorem C6_aligner_intersection (tickers : List String)
    (db : List (String × PriceSeries)) (lo hi : Nat)
    (htick : tickers ≠ [])
    (hnodup : ∀ e ∈ db, (seriesDates e.2).Nodup) :
    (alignSeries tickers db lo hi = .error .insufficientData ↔
      (∃ t ∈ tickers, lookupSeries db t = Option.none) ∨
      ¬∃ d1 d2, d1 ≠ d2 ∧ interWindow tickers db lo hi d1 ∧
        interWindow tickers db lo hi d2) ∧
    (∀ dates out, alignSeries tickers db lo hi = .ok (dates, out) →
      (∀ d, d ∈ dates ↔ interWindow tickers db lo hi d) ∧
      out.map Prod.fst = tickers ∧
      ∀ e ∈ out, ∃ s, lookupSeries db e.1 = Option.some s ∧
        e.2 = restrictSeries s dates) := by
  constructor
  · cases hg : gatherSeries db tickers with
    | none =>
      simp only [alignSeries, hg]
      exact iff_of_true trivial (Or.inl ((gatherSeries_none_iff db tickers).mp hg))
    | some series =>
      simp only [alignSeries, hg]
      obtain ⟨hmem, hnd⟩ := commonDates_spec tickers db lo hi series htick hnodup hg
      by_cases hlen : (commonDates (series.map Prod.snd) lo hi).length < 2
      · rw [if_pos hlen]
        apply iff_of_true (by trivial)
        right
        rintro ⟨d1, d2, hne, h1, h2⟩
        have : 2 ≤ (commonDates (series.map Prod.snd) lo hi).length :=
          (two_le_length_iff_two_distinct _ hnd).mpr
            ⟨d1, d2, hne, (hmem d1).mpr h1, (hmem d2).mpr h2⟩
        omega
      · rw [if_neg hlen]
        apply iff_of_false
        · intro hc
          exact Except.noConfusion hc
        · rintro (⟨t, ht, hnone⟩ | hno2)
          · have := (gatherSeries_none_iff db tickers).mpr ⟨t, ht, hnone⟩
            rw [hg] at this
            exact Option.noConfusion this
          · apply hno2
            obtain ⟨d1, d2, hne, h1, h2⟩ :=
              (two_le_length_iff_two_distinct _ hnd).mp (by omega)
            exact ⟨d1, d2, hne, (hmem d1).mp h1, (hmem d2).mp h2⟩
  · intro dates out hok
    cases hg : gatherSeries db tickers with
    | none =>
      simp only [alignSeries, hg] at hok
      exact Except.noConfusion hok
    | some series =>
      simp only [alignSeries, hg] at hok
      obtain ⟨hmem, _⟩ := commonDates_spec tickers db lo hi series htick hnodup hg
      obtain ⟨hmap, hlk⟩ := gatherSeries_sound db tickers series hg
      by_cases hlen : (commonDates (series.map Prod.snd) lo hi).length < 2
      · rw [if_pos hlen] at hok
        exact Except.noConfusion hok
      · rw [if_neg hlen] at hok
        simp only [Except.ok.injEq, Prod.mk.injEq] at hok
        obtain ⟨hdates, hout⟩ := hok
        subst hdates
        subst hout
        refine ⟨hmem, ?_, ?_⟩
        · rw [List.map_map]
          exact hmap
        · intro e he
          obtain ⟨a, ha, hae⟩ := List.mem_map.mp he
          subst hae
          exact ⟨a.2, hlk a ha, rfl⟩

/-- A concrete two-ticker mapping used to witness C6. -/
def demoDb : List (String × PriceSeries) :=
  [("A", { points := [(1, 10), (2, 11), (3, 12)] }),
   ("B", { points := [(2, 20), (3, 21), (4, 22)] })]

/-- Witness for C6 at a concrete mapping: the aligner keeps exactly the
common window dates and pairs every ticker in order. -/
theorem C6_aligner_intersection_witness :
    ((2 : Nat) ∈ [2, 3] ↔ interWindow ["A", "B"] demoDb 1 4 2) ∧
    ([(("A" : String), [((2 : Nat), (11 : ℚ)), (3, 12)]),
      ("B", [(2, 20), (3, 21)])].map Prod.fst = ["A", "B"]) :=
  ⟨((C6_aligner_intersection ["A", "B"] demoDb 1 4 (List.cons_ne_nil _ _)
      (by decide)).2 [2, 3]
      [("A", [(2, 11), (3, 12)]), ("B", [(2, 20), (3, 21)])] rfl).1 2,
   ((C6_aligner_intersection ["A", "B"] demoDb 1 4 (List.cons_ne_nil _ _)
      (by decide)).2 [2, 3]
      [("A", [(2, 11), (3, 12)]), ("B", [(2, 20), (3, 21)])] rfl).2.1⟩

/-! ## MetricsCalculator: max drawdown (C2)

Modelled from the spec (§4.3, the calculator is not in the source tree):
max drawdown is the minimum over t of NAV_t / running_max(NAV up to t) − 1. -/

/-- Per-date drawdowns, carrying the running maximum. -/
def drawdownsAux (m : ℚ) : List ℚ → List ℚ
  | [] => []
  | v :: rest => (v / max m v - 1) :: drawdownsAux (max m v) rest

/-- Modelled from the spec (§4.3): the drawdown path of a NAV path. -/
def drawdowns (nav : List ℚ) : List ℚ :=
  drawdownsAux 0 nav

/-- Modelled from the spec (§4.3): the max drawdown, the minimum drawdown
over the path (0 for an empty path). -/
def maxDrawdown (nav : List ℚ) : ℚ :=
  (drawdowns nav).foldl min 0

/-- Helper: a min-fold never exceeds its initial accumulator. -/
theorem foldl_min_le_init (l : List ℚ) (a : ℚ) : l.foldl min a ≤ a := by
  induction l generalizing a with
  | nil => exact le_refl a
  | cons x xs ih => exact le_trans (ih (min a x)) (min_le_left a x)

/-- Helper: a min-fold never exceeds any list element. -/
theorem foldl_min_le_mem (l : List ℚ) (a x : ℚ) (hx : x ∈ l) :
    l.foldl min a ≤ x := by
  induction l generalizing a with
  | nil => cases hx
  | cons y ys ih =>
    rcases List.mem_cons.mp hx with rfl | hmem
    · exact le_trans (foldl_min_le_init ys (min a x)) (min_le_right a x)
    · exact ih (min a y) hmem

/-- Helper: a min-fold keeps its initial accumulator over a list it
bounds from below. -/
theorem foldl_min_of_le (l : List ℚ) (a : ℚ) (h : ∀ x ∈ l, a ≤ x) :
    l.foldl min a = a := by
  induction l with
  | nil => rfl
  | cons x xs ih =>
    have hax : min a x = a := min_eq_left (h x (List.mem_cons_self _ _))
    simp only [List.foldl_cons, hax]
    exact ih (fun y hy => h y (List.mem_cons_of_mem _ hy))

/-- Helper: a min-fold from 0 is 0 exactly when no element is negative. -/
theorem foldl_min_zero_iff (l : List ℚ) :
    l.foldl min 0 = 0 ↔ ∀ x ∈ l, 0 ≤ x := by
  constructor
  · intro h x hx
    by_contra hneg
    have h1 : l.foldl min 0 ≤ x := foldl_min_le_mem l 0 x hx
    rw [h] at h1
    exact hneg h1
  · exact foldl_min_of_le l 0

/-- Helper: with positive NAV values, the drawdowns from running maximum
`m` are all non-negative exactly when the path ascends from `m`. -/
theorem drawdownsAux_nonneg_iff (nav : List ℚ) (m : ℚ) (hm : 0 ≤ m)
    (hpos : ∀ v ∈ nav, 0 < v) :
    (∀ x ∈ drawdownsAux m nav, 0 ≤ x) ↔ List.Chain (· ≤ ·) m nav := by
  induction nav generalizing m with
  | nil => simp [drawdownsAux]
  | cons v rest ih =>
    have hv : 0 < v := hpos v (List.mem_cons_self _ _)
    have hmaxpos : 0 < max m v := lt_max_of_lt_right hv
    have hrest : ∀ w ∈ rest, 0 < w := fun w hw => hpos w (List.mem_cons_of_mem _ hw)
    constructor
    · intro h
      have hhead : 0 ≤ v / max m v - 1 :=
        h _ (List.mem_cons_self _ _)
      have hdiv : 1 ≤ v / max m v := by linarith
      have hle : max m v ≤ v := by
        have := (one_le_div hmaxpos).mp hdiv
        exact this
      have hmv : m ≤ v := le_trans (le_max_left m v) hle
      have hmax : max m v = v := max_eq_right hmv
      apply List.Chain.cons hmv
      apply (ih v (le_of_lt hv) hrest).mp
      intro x hx
      apply h
      rw [drawdownsAux]
      apply List.mem_cons_of_mem
      rw [hmax]
      exact hx
    · intro h
      cases h with
      | cons hmv hchain =>
        have hmax : max m v = v := max_eq_right hmv
        intro x hx
        rw [drawdownsAux, hmax] at hx
        rcases List.mem_cons.mp hx with rfl | hmem
        · rw [div_self (ne_of_gt hv)]
          linarith
        · exact (ih v (le_of_lt hv) hrest).mpr hchain x hmem

/-- Claim C2: max drawdown is always at most 0, and with positive NAV
values it is 0 exactly when the NAV path is monotonically non-decreasing. -/
theorem C2_max_drawdown_nonpositive (nav : List ℚ) (hpos : ∀ v ∈ nav, 0 < v) :
    maxDrawdown nav ≤ 0 ∧
      (maxDrawdown nav = 0 ↔ List.Chain' (· ≤ ·) nav) := by
  refine ⟨foldl_min_le_init _ 0, ?_⟩
  rw [maxDrawdown, foldl_min_zero_iff]
  cases nav with
  | nil => simp [drawdowns, drawdownsAux]
  | cons v rest =>
    have hv : 0 < v := hpos v (List.mem_cons_self _ _)
    rw [drawdowns, drawdownsAux_nonneg_iff _ 0 (le_refl 0) hpos]
    constructor
    · intro h
      cases h with
      | cons _ hchain => exact hchain
    · intro h
      exact List.Chain.cons (le_of_lt hv) h

/-- Witness for C2 at a concrete path: a dipping path has negative max
drawdown, hence is not monotone. -/
theorem C2_max_drawdown_nonpositive_witness :
    maxDrawdown [1, 2, 1, 3] ≤ 0 ∧
      (maxDrawdown [1, 2, 1, 3] = 0 ↔ List.Chain' (· ≤ ·) [(1 : ℚ), 2, 1, 3]) :=
  C2_max_drawdown_nonpositive [1, 2, 1, 3] (by norm_num)

/-! ## MetricsCalculator: full metric set and zero-denominator sentinels (C3)

Modelled from the spec (§4.3 and §7, the calculator is not in the source
tree).  A metric that would divide by a zero volatility, zero downside
deviation, or zero absolute max drawdown is the sentinel `Option.none`
("reported as a non-finite value, never aborts"); every other metric is
always `Option.some`.  The real square root and the fractional CAGR power
are abstracted by the `sqrtFn` and `annualizeFn` parameters; the
zero-structure the claim is about is preserved by the hypothesis that
`sqrtFn` vanishes exactly at 0. -/

/-- Daily simple returns of a NAV path. -/
def returnsOf (nav : List ℚ) : List ℚ :=
  List.zipWith (fun prev cur => cur / prev - 1) nav nav.tail

/-- Mean of a list (0 for an empty list). -/
def listMean (l : List ℚ) : ℚ :=
  l.sum / l.length

/-- Population variance of a list. -/
def listVariance (l : List ℚ) : ℚ :=
  listMean (l.map (fun x => (x - listMean l) ^ 2))

/-- Mean squared downside (negative part) of a return list. -/
def downsideSq (l : List ℚ) : ℚ :=
  listMean (l.map (fun x => (min x 0) ^ 2))

/-- Covariance of two aligned return lists. -/
def covariance (xs ys : List ℚ) : ℚ :=
  listMean (List.zipWith (fun a b => (a - listMean xs) * (b - listMean ys)) xs ys)

/-- The empirical 5th percentile of a return list. -/
def percentile05 (l : List ℚ) : ℚ :=
  (List.insertionSort (fun a b => a ≤ b) l).getD (l.length * 5 / 100) 0

/-- The fixed metric set of §4.3; a sentinel field is `Option.none`. -/
structure MetricsSet where
  totalReturn : Option ℚ
  annualVolSq : Option ℚ
  sharpe : Option ℚ
  sortino : Option ℚ
  maxDD : Option ℚ
  calmar : Option ℚ
  var95 : Option ℚ
  beta : Option ℚ
deriving Repr, DecidableEq

/-- Modelled from the spec (§4.3): the metrics calculator.  Total function:
numeric edge cases are absorbed locally as `Option.none` sentinels and
never abort the remaining metrics. -/
def computeMetrics (sqrtFn annualizeFn : ℚ → ℚ) (rf : ℚ)
    (nav bench : List ℚ) : MetricsSet :=
  let r := returnsOf nav
  let rb := returnsOf bench
  let vol := sqrtFn (listVariance r * 252)
  let ddev := sqrtFn (downsideSq r * 252)
  let mdd := maxDrawdown nav
  let cagr := annualizeFn (nav.getLast?.getD 1 / nav.headD 1)
  { totalReturn := Option.some (nav.getLast?.getD 1 / nav.headD 1 - 1),
    annualVolSq := Option.some (listVariance r * 252),
    sharpe := if vol = 0 then Option.none
      else Option.some ((listMean r * 252 - rf) / vol),
    sortino := if ddev = 0 then Option.none
      else Option.some ((listMean r * 252 - rf) / ddev),
    maxDD := Option.some mdd,
    calmar := if mdd = 0 then Option.none else Option.some (cagr / |mdd|),
    var95 := Option.some (percentile05 r),
    beta := if listVariance rb = 0 then Option.none
      else Option.some (covariance r rb / listVariance rb) }

/-- Claim C3: every ratio whose denominator is exactly zero is the
`Option.none` sentinel — Sharpe and Sortino when the (squared) volatility
or downside deviation vanish, Calmar exactly when the max drawdown is 0,
Beta when the benchmark variance vanishes — while the remaining metrics
are always computed; the calculator is total and never raises. -/
theorem C3_zero_denominator_sentinels (sqrtFn annualizeFn : ℚ → ℚ) (rf : ℚ)
    (nav bench : List ℚ) (hsqrt : ∀ q, sqrtFn q = 0 ↔ q = 0) :
    ((computeMetrics sqrtFn annualizeFn rf nav bench).sharpe = Option.none ↔
      listVariance (returnsOf nav) = 0) ∧
    ((computeMetrics sqrtFn annualizeFn rf nav bench).sortino = Option.none ↔
      downsideSq (returnsOf nav) = 0) ∧
    ((computeMetrics sqrtFn annualizeFn rf nav bench).calmar = Option.none ↔
      maxDrawdown nav = 0) ∧
    ((computeMetrics sqrtFn annualizeFn rf nav bench).beta = Option.none ↔
      listVariance (returnsOf bench) = 0) ∧
    (computeMetrics sqrtFn annualizeFn rf nav bench).maxDD =
      Option.some (maxDrawdown nav) ∧
    (computeMetrics sqrtFn annualizeFn rf nav bench).totalReturn.isSome = true ∧
    (computeMetrics sqrtFn annualizeFn rf nav bench).annualVolSq.isSome = true ∧
    (computeMetrics sqrtFn annualizeFn rf nav bench).var95.isSome = true := by
  have h252 : (252 : ℚ) ≠ 0 := by norm_num
  have hvol : ∀ q : ℚ, sqrtFn (q * 252) = 0 ↔ q = 0 := by
    intro q
    rw [hsqrt, mul_eq_zero]
    constructor
    · rintro (h | h)
      · exact h
      · exact absurd h h252
    · exact Or.inl
  refine ⟨?_, ?_, ?_, ?_, ?_, ?_, ?_, ?_⟩
  · simp only [computeMetrics]
    by_cases h : sqrtFn (listVariance (returnsOf nav) * 252) = 0
    · rw [if_pos h]
      exact iff_of_true rfl ((hvol _).mp h)
    · rw [if_neg h]
      apply iff_of_false
      · intro hc
        exact Option.noConfusion hc
      · intro hc
        exact h ((hvol _).mpr hc)
  · simp only [computeMetrics]
    by_cases h : sqrtFn (downsideSq (returnsOf nav) * 252) = 0
    · rw [if_pos h]
      exact iff_of_true rfl ((hvol _).mp h)
    · rw [if_neg h]
      apply iff_of_false
      · intro hc
        exact Option.noConfusion hc
      · intro hc
        exact h ((hvol _).mpr hc)
  · simp only [computeMetrics]
    by_cases h : maxDrawdown nav = 0
    · rw [if_pos h]
      exact iff_of_true rfl h
    · rw [if_neg h]
      apply iff_of_false
      · intro hc
        exact Option.noConfusion hc
      · exact h
  · simp only [computeMetrics]
    by_cases h : listVariance (returnsOf bench) = 0
    · rw [if_pos h]
      exact iff_of_true rfl h
    · rw [if_neg h]
      apply iff_of_false
      · intro hc
        exact Option.noConfusion hc
      · exact h
  · rfl
  · rfl
  · rfl
  · rfl

/-- Witness for C3 at concrete inputs: a flat NAV path has zero max
drawdown and its Calmar ratio is the sentinel. -/
theorem C3_zero_denominator_sentinels_witness :
    (computeMetrics id id 0 [1, 1] [1, 2]).calmar = Option.none ↔
      maxDrawdown [1, 1] = 0 :=
  (C3_zero_denominator_sentinels id id 0 [1, 1] [1, 2]
    (fun _ => Iff.rfl)).2.2.1

/-! ## RebalancingSimulator (C1, C7)

Modelled from the spec (§4.2, the simulator is not in the source tree).
An aligned date is abstracted to its absolute calendar-day index (for the
daily TER drag, charged per elapsed calendar day) and its absolute month
index (for rebalance-boundary detection: a rebalance happens on the first
aligned date of each new month/quarter/year, per the frequency).  The
simulation state is the fractional share count per asset; the NAV path
records total portfolio value at every aligned date, post drag and cost. -/

/-- An aligned trading date, abstracted to absolute day and month indices. -/
structure AlignedDate where
  day : Nat
  month : Nat
deriving Repr, DecidableEq

/-- The rebalance-period identifier of a date under a frequency (`none`
for no rebalancing). -/
def periodKey : RebalanceFreq → AlignedDate → Option Nat
  | .none, _ => Option.none
  | .monthly, d => Option.some d.month
  | .quarterly, d => Option.some (d.month / 3)
  | .yearly, d => Option.some (d.month / 12)

/-- A date is a rebalance date when it is the first aligned date of a new
period relative to the previous aligned date. -/
def isRebalanceDate (freq : RebalanceFreq) (prev cur : AlignedDate) : Bool :=
  match periodKey freq prev, periodKey freq cur with
  | Option.some a, Option.some b => decide (a ≠ b)
  | _, _ => false

/-- One simulation step input: elapsed calendar days since the previous
aligned date, the rebalance flag, and that date's prices per asset. -/
structure SimRow where
  gap : Nat
  reb : Bool
  prices : List ℚ
deriving Repr, DecidableEq

/-- Turn aligned dates and prices into simulation rows, starting from the
first aligned date. -/
def buildRows (freq : RebalanceFreq) :
    AlignedDate → List (AlignedDate × List ℚ) → List SimRow
  | _, [] => []
  | prev, (d, ps) :: rest =>
      { gap := d.day - prev.day, reb := isRebalanceDate freq prev d,
        prices := ps } :: buildRows freq d rest

/-- The per-asset daily TER drag factor compounded over `gap` calendar
days: (1 − ter/365)^gap. -/
def dragFactors (assets : List AssetSpec) (gap : Nat) : List ℚ :=
  assets.map (fun a => (1 - a.ter / 365) ^ gap)

/-- Apply the TER drag to the share vector. -/
def applyDrag (assets : List AssetSpec) (gap : Nat) (shares : List ℚ) : List ℚ :=
  List.zipWith (fun f s => f * s) (dragFactors assets gap) shares

/-- Dollar holdings per asset. -/
def holdingsOf (shares prices : List ℚ) : List ℚ :=
  List.zipWith (fun s p => s * p) shares prices

/-- Turnover: the sum of absolute dollar differences between current and
target holdings, divided by total value. -/
def turnoverOf (weights holdings : List ℚ) (value : ℚ) : ℚ :=
  (List.zipWith (fun w h => |h - w * value|) weights holdings).sum / value

/-- Allocate a dollar value across assets at the given prices by target
weight, producing fractional share counts. -/
def allocate (assets : List AssetSpec) (prices : List ℚ) (value : ℚ) : List ℚ :=
  List.zipWith (fun a p => a.weight * value / p) assets prices

/-- Pre-rebalance portfolio value at a row: shares after drag times
prices. -/
def stepValuePre (assets : List AssetSpec) (s : List ℚ) (row : SimRow) : ℚ :=
  dot (applyDrag assets row.gap s) row.prices

/-- Turnover at a row (computed before any cost deduction). -/
def stepTauVal (assets : List AssetSpec) (s : List ℚ) (row : SimRow) : ℚ :=
  turnoverOf (assets.map (fun a => a.weight))
    (holdingsOf (applyDrag assets row.gap s) row.prices)
    (stepValuePre assets s row)

/-- The NAV recorded at a row: pre-rebalance value, minus the transaction
cost `cost × turnover × value` on a rebalance date. -/
def stepNav (assets : List AssetSpec) (cost : ℚ) (s : List ℚ) (row : SimRow) : ℚ :=
  if row.reb then
    stepValuePre assets s row -
      cost * stepTauVal assets s row * stepValuePre assets s row
  else stepValuePre assets s row

/-- The share vector after a row: reallocated to target weights at the
post-cost value on a rebalance date, otherwise just the dragged shares. -/
def stepShares (assets : List AssetSpec) (cost : ℚ) (s : List ℚ) (row : SimRow) : List ℚ :=
  if row.reb then allocate assets row.prices (stepNav assets cost s row)
  else applyDrag assets row.gap s

/-- The NAV values over the rows after the first date. -/
def simNavs (assets : List AssetSpec) (cost : ℚ) : List ℚ → List SimRow → List ℚ
  | _, [] => []
  | s, row :: rest =>
      stepNav assets cost s row ::
        simNavs assets cost (stepShares assets cost s row) rest

/-- The turnover events over the rows (one per rebalance date, also when
the cost rate is 0). -/
def simTaus (assets : List AssetSpec) (cost : ℚ) : List ℚ → List SimRow → List ℚ
  | _, [] => []
  | s, row :: rest =>
      if row.reb then
        stepTauVal assets s row ::
          simTaus assets cost (stepShares assets cost s row) rest
      else simTaus assets cost (stepShares assets cost s row) rest

/-- A simulation run: the NAV path and the turnover events. -/
structure SimResult where
  nav : List ℚ
  turnovers : List ℚ
deriving Repr, DecidableEq

/-- Modelled from the spec (§4.2): the rebalancing simulator.  At the first
aligned date the initial investment is allocated by weight into fractional
shares and the recorded NAV is the resulting holdings value; every later
date drags, optionally rebalances with cost, and records the value. -/
def runSimulation (assets : List AssetSpec) (cfg : BacktestConfig)
    (data : List (AlignedDate × List ℚ)) : SimResult :=
  match data with
  | [] => { nav := [], turnovers := [] }
  | (d0, p0) :: rest =>
      { nav := dot (allocate assets p0 cfg.initialInvestment) p0 ::
          simNavs assets cfg.transactionCost
            (allocate assets p0 cfg.initialInvestment)
            (buildRows cfg.frequency d0 rest),
        turnovers := simTaus assets cfg.transactionCost
          (allocate assets p0 cfg.initialInvestment)
          (buildRows cfg.frequency d0 rest) }

/-- The final NAV of a run (0 for an empty run). -/
def finalNav (r : SimResult) : ℚ :=
  r.nav.getLast?.getD 0

/-- Helper: allocating a value and pricing it back returns the value times
the raw weight sum. -/
theorem dot_allocate (assets : List AssetSpec) (p : List ℚ) (V : ℚ)
    (hlen : p.length = assets.length) (hp : ∀ x ∈ p, x ≠ 0) :
    dot (allocate assets p V) p = V * rawWeightSum assets := by
  induction assets generalizing p with
  | nil =>
    cases p with
    | nil => simp [dot, allocate, rawWeightSum]
    | cons q qs => simp at hlen
  | cons a rest ih =>
    cases p with
    | nil => simp at hlen
    | cons q qs =>
      have hq : q ≠ 0 := hp q (List.mem_cons_self _ _)
      have hqs : ∀ x ∈ qs, x ≠ 0 := fun x hx => hp x (List.mem_cons_of_mem _ hx)
      have hlen2 : qs.length = rest.length := by
        simpa using hlen
      simp only [dot, allocate, rawWeightSum, List.zipWith_cons_cons,
        List.sum_cons, List.map_cons] at *
      rw [div_mul_cancel₀ _ hq]
      have ihq := ih qs hlen2 hqs
      simp only [dot, allocate, rawWeightSum] at ihq
      rw [ihq]
      ring

/-- Claim C1: for a portfolio with normalized weights, the NAV path starts
at the first aligned date with exactly the configured initial investment
(no drag or cost has applied yet). -/
theorem C1_nav_starts_at_initial_investment (assets : List AssetSpec)
    (cfg : BacktestConfig) (d0 : AlignedDate) (p0 : List ℚ)
    (rest : List (AlignedDate × List ℚ))
    (hw : rawWeightSum assets = 1)
    (hlen : p0.length = assets.length) (hp : ∀ x ∈ p0, x ≠ 0) :
    (runSimulation assets cfg ((d0, p0) :: rest)).nav.head? =
      Option.some cfg.initialInvestment := by
  simp only [runSimulation, List.head?_cons, Option.some.injEq]
  rw [dot_allocate assets p0 cfg.initialInvestment hlen hp, hw, mul_one]

/-- Witness for C1 at a concrete two-asset portfolio and first-date
prices. -/
theorem C1_nav_starts_at_initial_investment_witness :
    (runSimulation
      [{ ticker := "A", weight := 1/2, ter := 0 },
       { ticker := "B", weight := 1/2, ter := 0 }]
      { initialInvestment := 10000, frequency := .none,
        transactionCost := 0, reinvestDividends := true }
      [({ day := 0, month := 0 }, [100, 50])]).nav.head? =
      Option.some
        ({ initialInvestment := 10000, frequency := RebalanceFreq.none,
           transactionCost := 0,
           reinvestDividends := true } : BacktestConfig).initialInvestment :=
  C1_nav_starts_at_initial_investment
    [{ ticker := "A", weight := 1/2, ter := 0 },
     { ticker := "B", weight := 1/2, ter := 0 }]
    { initialInvestment := 10000, frequency := .none,
      transactionCost := 0, reinvestDividends := true }
    { day := 0, month := 0 } [100, 50] []
    (by norm_num [rawWeightSum]) rfl
    (by
      intro x hx
      rcases List.mem_cons.mp hx with rfl | hx2
      · norm_num
      · rcases List.mem_cons.mp hx2 with rfl | hx3
        · norm_num
        · cases hx3)

/-! ## Scaling and positivity lemmas for the simulator (towards C7) -/

/-- Helper: scaling the share vector scales the dot product. -/
theorem dot_map_mul (α : ℚ) (s p : List ℚ) :
    dot (s.map (fun x => α * x)) p = α * dot s p := by
  induction s generalizing p with
  | nil => simp [dot]
  | cons a t ih =>
    cases p with
    | nil => simp [dot]
    | cons q qs =>
      simp only [List.map_cons, dot, List.zipWith_cons_cons, List.sum_cons]
      have iht := ih qs
      simp only [dot] at iht
      rw [iht]
      ring

/-- Helper: the dot product is symmetric. -/
theorem dot_comm (s p : List ℚ) : dot s p = dot p s := by
  induction s generalizing p with
  | nil => cases p <;> simp [dot]
  | cons a t ih =>
    cases p with
    | nil => simp [dot]
    | cons q qs =>
      simp only [dot, List.zipWith_cons_cons, List.sum_cons]
      have iht := ih qs
      simp only [dot] at iht
      rw [iht, mul_comm]

/-- Helper: pointwise multiplication distributes over a scaled right list. -/
theorem zipWith_mul_map_right (α : ℚ) (L s : List ℚ) :
    List.zipWith (fun f x => f * x) L (s.map (fun x => α * x)) =
      (List.zipWith (fun f x => f * x) L s).map (fun x => α * x) := by
  induction L generalizing s with
  | nil => simp
  | cons a t ih =>
    cases s with
    | nil => simp
    | cons b u =>
      simp only [List.map_cons, List.zipWith_cons_cons]
      rw [ih u]
      congr 1
      ring

/-- Helper: pointwise multiplication distributes over a scaled left list. -/
theorem zipWith_mul_map_left (α : ℚ) (s p : List ℚ) :
    List.zipWith (fun x y => x * y) (s.map (fun x => α * x)) p =
      (List.zipWith (fun x y => x * y) s p).map (fun x => α * x) := by
  induction s generalizing p with
  | nil => simp
  | cons a t ih =>
    cases p with
    | nil => simp
    | cons q qs =>
      simp only [List.map_cons, List.zipWith_cons_cons]
      rw [ih qs]
      congr 1
      ring

/-- Helper: a scaled list sums to the scaled sum. -/
theorem sum_map_mul (α : ℚ) (l : List ℚ) :
    (l.map (fun x => α * x)).sum = α * l.sum := by
  simpa using List.sum_map_mul_left l id α

/-- Helper: the TER drag commutes with scaling the share vector. -/
theorem applyDrag_map (assets : List AssetSpec) (gap : Nat) (α : ℚ) (s : List ℚ) :
    applyDrag assets gap (s.map (fun x => α * x)) =
      (applyDrag assets gap s).map (fun x => α * x) :=
  zipWith_mul_map_right α (dragFactors assets gap) s

/-- Helper: holdings commute with scaling the share vector. -/
theorem holdingsOf_map (α : ℚ) (s p : List ℚ) :
    holdingsOf (s.map (fun x => α * x)) p =
      (holdingsOf s p).map (fun x => α * x) :=
  zipWith_mul_map_left α s p

/-- Helper: turnover is invariant under a positive scaling of holdings and
value. -/
theorem turnoverOf_map (α : ℚ) (hα : 0 < α) (w h : List ℚ) (v : ℚ) :
    turnoverOf w (h.map (fun x => α * x)) (α * v) = turnoverOf w h v := by
  unfold turnoverOf
  have hz : List.zipWith (fun wt hh => |hh - wt * (α * v)|) w
      (h.map (fun x => α * x)) =
      (List.zipWith (fun wt hh => |hh - wt * v|) w h).map (fun x => α * x) := by
    induction w generalizing h with
    | nil => simp
    | cons a t ih =>
      cases h with
      | nil => simp
      | cons b u =>
        simp only [List.map_cons, List.zipWith_cons_cons]
        rw [ih u]
        congr 1
        have he : α * b - a * (α * v) = α * (b - a * v) := by ring
        rw [he, abs_mul, abs_of_pos hα]
  rw [hz, sum_map_mul]
  exact mul_div_mul_left _ _ (ne_of_gt hα)

/-- Helper: allocation of a scaled value is the scaled allocation. -/
theorem allocate_map (assets : List AssetSpec) (p : List ℚ) (α v : ℚ) :
    allocate assets p (α * v) = (allocate assets p v).map (fun x => α * x) := by
  induction assets generalizing p with
  | nil => simp [allocate]
  | cons a t ih =>
    cases p with
    | nil => simp [allocate]
    | cons q qs =>
      simp only [allocate, List.zipWith_cons_cons, List.map_cons]
      rw [show (List.zipWith (fun a p => a.weight * (α * v) / p) t qs) =
        allocate t qs (α * v) from rfl]
      rw [ih qs]
      rw [show (List.zipWith (fun a p => a.weight * v / p) t qs) =
        allocate t qs v from rfl]
      congr 1
      ring

/-- Helper: a dot product of non-negative lists is non-negative. -/
theorem dot_nonneg (s p : List ℚ) (hs : ∀ x ∈ s, 0 ≤ x) (hp : ∀ x ∈ p, 0 ≤ x) :
    0 ≤ dot s p := by
  induction s generalizing p with
  | nil => simp [dot]
  | cons a t ih =>
    cases p with
    | nil => simp [dot]
    | cons q qs =>
      simp only [dot, List.zipWith_cons_cons, List.sum_cons]
      have h1 : 0 ≤ a * q :=
        mul_nonneg (hs a (List.mem_cons_self _ _)) (hp q (List.mem_cons_self _ _))
      have h2 : 0 ≤ dot t qs :=
        ih qs (fun x hx => hs x (List.mem_cons_of_mem _ hx))
          (fun x hx => hp x (List.mem_cons_of_mem _ hx))
      simp only [dot] at h2
      linarith

/-- Helper: a dot product of a non-negative vector with positive total
against positive prices is positive. -/
theorem dot_pos (s p : List ℚ) (hlen : s.length = p.length)
    (hs : ∀ x ∈ s, 0 ≤ x) (hp : ∀ x ∈ p, 0 < x) (hsum : 0 < s.sum) :
    0 < dot s p := by
  induction s generalizing p with
  | nil => simp at hsum
  | cons a t ih =>
    cases p with
    | nil => simp at hlen
    | cons q qs =>
      have hq : 0 < q := hp q (List.mem_cons_self _ _)
      have hts : ∀ x ∈ t, 0 ≤ x := fun x hx => hs x (List.mem_cons_of_mem _ hx)
      have hqs : ∀ x ∈ qs, 0 < x := fun x hx => hp x (List.mem_cons_of_mem _ hx)
      have hlen2 : t.length = qs.length := by simpa using hlen
      simp only [dot, List.zipWith_cons_cons, List.sum_cons]
      by_cases ha : 0 < a
      · have h1 : 0 < a * q := mul_pos ha hq
        have h2 : 0 ≤ dot t qs :=
          dot_nonneg t qs hts (fun x hx => le_of_lt (hqs x hx))
        simp only [dot] at h2
        linarith
      · have ha0 : a = 0 := le_antisymm (not_lt.mp ha) (hs a (List.mem_cons_self _ _))
        have hsum2 : 0 < t.sum := by
          rw [List.sum_cons, ha0, zero_add] at hsum
          exact hsum
        have h2 := ih qs hlen2 hts hqs hsum2
        simp only [dot] at h2
        rw [ha0]
        simp only [zero_mul, zero_add]
        exact h2

/-- A valid simulation row: one positive price per asset. -/
def validRow (assets : List AssetSpec) (row : SimRow) : Prop :=
  row.prices.length = assets.length ∧ ∀ x ∈ row.prices, 0 < x

/-- A valid simulation state: one non-negative share count per asset with
positive total. -/
def validState (assets : List AssetSpec) (s : List ℚ) : Prop :=
  s.length = assets.length ∧ (∀ x ∈ s, 0 ≤ x) ∧ 0 < s.sum

/-- A valid asset list: non-negative weights summing to 1 and TER below
365 (so the daily drag factor stays positive). -/
def validAssets (assets : List AssetSpec) : Prop :=
  (∀ a ∈ assets, 0 ≤ a.weight) ∧ rawWeightSum assets = 1 ∧
    ∀ a ∈ assets, a.ter < 365

/-- Helper: every TER drag factor is positive. -/
theorem dragFactors_pos (assets : List AssetSpec) (gap : Nat)
    (hter : ∀ a ∈ assets, a.ter < 365) :
    ∀ f ∈ dragFactors assets gap, 0 < f := by
  intro f hf
  obtain ⟨a, ha, rfl⟩ := List.mem_map.mp hf
  apply pow_pos
  have h365 : (0 : ℚ) < 365 := by norm_num
  have := hter a ha
  rw [sub_pos, div_lt_one h365]
  exact this

/-- Helper: pointwise products of non-negative lists are non-negative. -/
theorem zipWith_mul_nonneg (L s : List ℚ)
    (hL : ∀ f ∈ L, 0 ≤ f) (hs : ∀ x ∈ s, 0 ≤ x) :
    ∀ y ∈ List.zipWith (fun f x => f * x) L s, 0 ≤ y := by
  induction L generalizing s with
  | nil => simp
  | cons a t ih =>
    cases s with
    | nil => simp
    | cons b u =>
      intro y hy
      simp only [List.zipWith_cons_cons, List.mem_cons] at hy
      rcases hy with rfl | hy2
      · exact mul_nonneg (hL a (List.mem_cons_self _ _)) (hs b (List.mem_cons_self _ _))
      · exact ih u (fun f hf => hL f (List.mem_cons_of_mem _ hf))
          (fun x hx => hs x (List.mem_cons_of_mem _ hx)) y hy2

/-- Helper: the dragged share vector stays a valid state. -/
theorem applyDrag_valid (assets : List AssetSpec) (gap : Nat) (s : List ℚ)
    (hter : ∀ a ∈ assets, a.ter < 365) (hs : validState assets s) :
    validState assets (applyDrag assets gap s) := by
  obtain ⟨hlen, hnn, hsum⟩ := hs
  have hflen : (dragFactors assets gap).length = assets.length := by
    simp [dragFactors]
  refine ⟨?_, ?_, ?_⟩
  · rw [applyDrag, List.length_zipWith, hflen, hlen]
    exact min_self _
  · exact zipWith_mul_nonneg _ _
      (fun f hf => le_of_lt (dragFactors_pos assets gap hter f hf)) hnn
  · have heq : (applyDrag assets gap s).sum = dot (dragFactors assets gap) s := rfl
    rw [heq, dot_comm]
    apply dot_pos s (dragFactors assets gap) (by rw [hlen, hflen]) hnn
      (dragFactors_pos assets gap hter) hsum

/-- Helper: allocated share counts are non-negative. -/
theorem allocate_nonneg (assets : List AssetSpec) (p : List ℚ) (v : ℚ)
    (hw : ∀ a ∈ assets, 0 ≤ a.weight) (hp : ∀ x ∈ p, 0 ≤ x) (hv : 0 ≤ v) :
    ∀ y ∈ allocate assets p v, 0 ≤ y := by
  induction assets generalizing p with
  | nil => simp [allocate]
  | cons a t ih =>
    cases p with
    | nil => simp [allocate]
    | cons q qs =>
      intro y hy
      simp only [allocate, List.zipWith_cons_cons, List.mem_cons] at hy
      rcases hy with rfl | hy2
      · exact div_nonneg (mul_nonneg (hw a (List.mem_cons_self _ _)) hv)
          (hp q (List.mem_cons_self _ _))
      · exact ih qs (fun b hb => hw b (List.mem_cons_of_mem _ hb))
          (fun x hx => hp x (List.mem_cons_of_mem _ hx)) y hy2

/-- Helper: allocating a positive value across positive-weight-sum assets
at positive prices yields a positive share total. -/
theorem allocate_sum_pos (assets : List AssetSpec) (p : List ℚ) (v : ℚ)
    (hlen : p.length = assets.length) (hv : 0 < v)
    (hw : ∀ a ∈ assets, 0 ≤ a.weight) (hp : ∀ x ∈ p, 0 < x)
    (hsum : 0 < rawWeightSum assets) :
    0 < (allocate assets p v).sum := by
  induction assets generalizing p with
  | nil => simp [rawWeightSum] at hsum
  | cons a t ih =>
    cases p with
    | nil => simp at hlen
    | cons q qs =>
      have hq : 0 < q := hp q (List.mem_cons_self _ _)
      have hlen2 : qs.length = t.length := by simpa using hlen
      have hwt : ∀ b ∈ t, 0 ≤ b.weight := fun b hb => hw b (List.mem_cons_of_mem _ hb)
      have hqs : ∀ x ∈ qs, 0 < x := fun x hx => hp x (List.mem_cons_of_mem _ hx)
      simp only [allocate, List.zipWith_cons_cons, List.sum_cons]
      by_cases ha : 0 < a.weight
      · have h1 : 0 < a.weight * v / q := div_pos (mul_pos ha hv) hq
        have h2 : 0 ≤ (allocate t qs v).sum :=
          List.sum_nonneg (allocate_nonneg t qs v hwt
            (fun x hx => le_of_lt (hqs x hx)) (le_of_lt hv))
        simp only [allocate] at h2
        linarith
      · have ha0 : a.weight = 0 :=
          le_antisymm (not_lt.mp ha) (hw a (List.mem_cons_self _ _))
        have hsum2 : 0 < rawWeightSum t := by
          simp only [rawWeightSum, List.map_cons, List.sum_cons, ha0,
            zero_add] at hsum
          exact hsum
        have h2 := ih qs hlen2 hwt hqs hsum2
        simp only [allocate] at h2
        rw [ha0]
        simp only [zero_mul, zero_div, zero_add]
        exact h2

/-- Helper: pointwise comparison of zipped sums over list members. -/
theorem zipWith_sum_le (f g : ℚ → ℚ → ℚ) (w l : List ℚ)
    (h : ∀ a ∈ w, ∀ b ∈ l, f a b ≤ g a b) :
    (List.zipWith f w l).sum ≤ (List.zipWith g w l).sum := by
  induction w generalizing l with
  | nil => simp
  | cons a t ih =>
    cases l with
    | nil => simp
    | cons b u =>
      simp only [List.zipWith_cons_cons, List.sum_cons]
      refine add_le_add (h a (List.mem_cons_self _ _) b (List.mem_cons_self _ _)) ?_
      exact ih u (fun x hx y hy =>
        h x (List.mem_cons_of_mem _ hx) y (List.mem_cons_of_mem _ hy))

/-- Helper: for equally long lists, the shifted zipped sum splits. -/
theorem zipWith_sum_split (w l : List ℚ) (v : ℚ) (hlen : w.length = l.length) :
    (List.zipWith (fun a b => b + a * v) w l).sum = l.sum + w.sum * v := by
  induction w generalizing l with
  | nil =>
    cases l with
    | nil => simp
    | cons b u => simp at hlen
  | cons a t ih =>
    cases l with
    | nil => simp at hlen
    | cons b u =>
      simp only [List.zipWith_cons_cons, List.sum_cons]
      rw [ih u (by simpa using hlen)]
      ring

/-- Helper: each zipped absolute difference term is non-negative. -/
theorem zipWith_abs_nonneg (w l : List ℚ) (v : ℚ) :
    ∀ x ∈ List.zipWith (fun a b => |b - a * v|) w l, 0 ≤ x := by
  induction w generalizing l with
  | nil => simp
  | cons a t ih =>
    cases l with
    | nil => simp
    | cons b u =>
      intro x hx
      simp only [List.zipWith_cons_cons, List.mem_cons] at hx
      rcases hx with rfl | hx2
      · exact abs_nonneg _
      · exact ih u x hx2

/-- Helper: turnover of non-negative holdings against weights summing to 1
lies between 0 and 2. -/
theorem turnoverOf_bounds (w h : List ℚ) (v : ℚ)
    (hlen : w.length = h.length)
    (hw : ∀ x ∈ w, 0 ≤ x) (hh : ∀ x ∈ h, 0 ≤ x)
    (hv : 0 < v) (hwsum : w.sum = 1) (hhsum : h.sum = v) :
    0 ≤ turnoverOf w h v ∧ turnoverOf w h v ≤ 2 := by
  constructor
  · exact div_nonneg (List.sum_nonneg (zipWith_abs_nonneg w h v)) (le_of_lt hv)
  · rw [turnoverOf, div_le_iff₀ hv]
    have hstep : (List.zipWith (fun a b => |b - a * v|) w h).sum ≤
        (List.zipWith (fun a b => b + a * v) w h).sum := by
      apply zipWith_sum_le
      intro a ha b hb
      have hav : 0 ≤ a * v := mul_nonneg (hw a ha) (le_of_lt hv)
      have hb0 : 0 ≤ b := hh b hb
      calc |b - a * v| = |b + -(a * v)| := by rw [sub_eq_add_neg]
        _ ≤ |b| + |-(a * v)| := abs_add _ _
        _ = b + a * v := by rw [abs_neg, abs_of_nonneg hb0, abs_of_nonneg hav]
    rw [zipWith_sum_split w h v hlen, hwsum, hhsum] at hstep
    linarith

/-- Helper: with zero cost no deduction occurs at a rebalance. -/
theorem stepNav_zero (assets : List AssetSpec) (s : List ℚ) (row : SimRow) :
    stepNav assets 0 s row = stepValuePre assets s row := by
  unfold stepNav
  split <;> ring

/-- Helper: the pre-rebalance value of a valid state is positive. -/
theorem stepValuePre_pos (assets : List AssetSpec) (s : List ℚ) (row : SimRow)
    (hter : ∀ a ∈ assets, a.ter < 365)
    (hrow : validRow assets row) (hs : validState assets s) :
    0 < stepValuePre assets s row := by
  obtain ⟨hplen, hppos⟩ := hrow
  obtain ⟨hlen2, hnn2, hsum2⟩ := applyDrag_valid assets row.gap s hter hs
  exact dot_pos _ _ (by rw [hlen2, hplen]) hnn2 hppos hsum2

/-- Helper: turnover at any valid step lies between 0 and 2. -/
theorem stepTau_bounds (assets : List AssetSpec) (s : List ℚ) (row : SimRow)
    (hA : validAssets assets) (hrow : validRow assets row)
    (hs : validState assets s) :
    0 ≤ stepTauVal assets s row ∧ stepTauVal assets s row ≤ 2 := by
  obtain ⟨hw, hwsum, hter⟩ := hA
  obtain ⟨hplen, hppos⟩ := hrow
  obtain ⟨hdlen, hdnn, _⟩ := applyDrag_valid assets row.gap s hter hs
  unfold stepTauVal
  apply turnoverOf_bounds
  · rw [List.length_map, holdingsOf, List.length_zipWith, hdlen, hplen, min_self]
  · intro x hx
    obtain ⟨a, ha, rfl⟩ := List.mem_map.mp hx
    exact hw a ha
  · exact zipWith_mul_nonneg _ _ hdnn (fun x hx => le_of_lt (hppos x hx))
  · exact stepValuePre_pos assets s row hter ⟨hplen, hppos⟩ hs
  · exact hwsum
  · rfl

/-- Helper: the zero-cost step preserves state validity. -/
theorem stepShares_zero_valid (assets : List AssetSpec) (s : List ℚ) (row : SimRow)
    (hA : validAssets assets) (hrow : validRow assets row)
    (hs : validState assets s) :
    validState assets (stepShares assets 0 s row) := by
  obtain ⟨hw, hwsum, hter⟩ := hA
  obtain ⟨hplen, hppos⟩ := hrow
  have hv := stepValuePre_pos assets s row hter ⟨hplen, hppos⟩ hs
  unfold stepShares
  split
  · rw [stepNav_zero]
    refine ⟨?_, ?_, ?_⟩
    · rw [allocate, List.length_zipWith, hplen, min_self]
    · exact allocate_nonneg assets row.prices _ hw
        (fun x hx => le_of_lt (hppos x hx)) (le_of_lt hv)
    · exact allocate_sum_pos assets row.prices _ hplen hv hw hppos
        (by rw [hwsum]; norm_num)
  · exact applyDrag_valid assets row.gap s hter hs

/-- Helper: the pre-rebalance value scales with the share vector. -/
theorem stepValuePre_map (assets : List AssetSpec) (α : ℚ) (s : List ℚ)
    (row : SimRow) :
    stepValuePre assets (s.map (fun x => α * x)) row =
      α * stepValuePre assets s row := by
  unfold stepValuePre
  rw [applyDrag_map, dot_map_mul]

/-- Helper: turnover is invariant under a positive scaling of the share
vector. -/
theorem stepTau_map (assets : List AssetSpec) (α : ℚ) (hα : 0 < α)
    (s : List ℚ) (row : SimRow) :
    stepTauVal assets (s.map (fun x => α * x)) row = stepTauVal assets s row := by
  unfold stepTauVal
  rw [applyDrag_map, holdingsOf_map, stepValuePre_map]
  exact turnoverOf_map α hα _ _ _

/-- The cumulative cost factor of a run: the product of (1 − c·τ) over its
turnover events. -/
def costFactor (c : ℚ) (taus : List ℚ) : ℚ :=
  (taus.map (fun t => 1 - c * t)).prod

/-- Helper: the cost factor of a cons. -/
theorem costFactor_cons (c t : ℚ) (ts : List ℚ) :
    costFactor c (t :: ts) = (1 - c * t) * costFactor c ts := by
  simp [costFactor]

/-- Helper: the cost factor is positive for a sub-half cost rate and
turnovers in [0, 2]. -/
theorem costFactor_pos (c : ℚ) (taus : List ℚ) (hc0 : 0 ≤ c) (hc : c < 1/2)
    (hb : ∀ t ∈ taus, 0 ≤ t ∧ t ≤ 2) : 0 < costFactor c taus := by
  induction taus with
  | nil => simp [costFactor]
  | cons t ts ih =>
    rw [costFactor_cons]
    obtain ⟨ht0, ht2⟩ := hb t (List.mem_cons_self _ _)
    have h1 : c * t ≤ c * 2 := mul_le_mul_of_nonneg_left ht2 hc0
    have h2 : c * t < 1 := by linarith
    exact mul_pos (by linarith)
      (ih (fun u hu => hb u (List.mem_cons_of_mem _ hu)))

/-- Helper: the cost factor is antitone in the cost rate. -/
theorem costFactor_le (c1 c2 : ℚ) (taus : List ℚ) (hc1 : 0 ≤ c1)
    (h12 : c1 ≤ c2) (hc2 : c2 < 1/2)
    (hb : ∀ t ∈ taus, 0 ≤ t ∧ t ≤ 2) :
    costFactor c2 taus ≤ costFactor c1 taus := by
  induction taus with
  | nil => simp [costFactor]
  | cons t ts ih =>
    rw [costFactor_cons, costFactor_cons]
    obtain ⟨ht0, ht2⟩ := hb t (List.mem_cons_self _ _)
    have hbt : ∀ u ∈ ts, 0 ≤ u ∧ u ≤ 2 := fun u hu => hb u (List.mem_cons_of_mem _ hu)
    have hhead : 1 - c2 * t ≤ 1 - c1 * t := by
      have := mul_le_mul_of_nonneg_right h12 ht0
      linarith
    have hF2 : 0 < costFactor c2 ts :=
      costFactor_pos c2 ts (le_trans hc1 h12) hc2 hbt
    have ha2 : 0 < 1 - c2 * t := by
      have h1 : c2 * t ≤ c2 * 2 := mul_le_mul_of_nonneg_left ht2 (le_trans hc1 h12)
      linarith
    exact mul_le_mul hhead (ih hbt) (le_of_lt hF2) (by linarith)

/-- Helper: the cost factor is strictly antitone in the cost rate when the
total turnover is positive. -/
theorem costFactor_lt (c1 c2 : ℚ) (taus : List ℚ) (hc1 : 0 ≤ c1)
    (h12 : c1 < c2) (hc2 : c2 < 1/2)
    (hb : ∀ t ∈ taus, 0 ≤ t ∧ t ≤ 2) (hsum : 0 < taus.sum) :
    costFactor c2 taus < costFactor c1 taus := by
  induction taus with
  | nil => simp at hsum
  | cons t ts ih =>
    rw [costFactor_cons, costFactor_cons]
    obtain ⟨ht0, ht2⟩ := hb t (List.mem_cons_self _ _)
    have hbt : ∀ u ∈ ts, 0 ≤ u ∧ u ≤ 2 := fun u hu => hb u (List.mem_cons_of_mem _ hu)
    have hF2 : 0 < costFactor c2 ts := costFactor_pos c2 ts (by linarith) hc2 hbt
    have hF1 : 0 < costFactor c1 ts := costFactor_pos c1 ts hc1 (by linarith) hbt
    have ha2 : 0 < 1 - c2 * t := by
      have h1 : c2 * t ≤ c2 * 2 := mul_le_mul_of_nonneg_left ht2 (by linarith)
      linarith
    have ha1 : 0 < 1 - c1 * t := by
      have h1 : c1 * t ≤ c1 * 2 := mul_le_mul_of_nonneg_left ht2 hc1
      linarith
    by_cases ht : 0 < t
    · have hhead : 1 - c2 * t < 1 - c1 * t := by
        have := mul_lt_mul_of_pos_right h12 ht
        linarith
      have htail : costFactor c2 ts ≤ costFactor c1 ts :=
        costFactor_le c1 c2 ts hc1 (le_of_lt h12) hc2 hbt
      calc (1 - c2 * t) * costFactor c2 ts
          ≤ (1 - c2 * t) * costFactor c1 ts :=
            mul_le_mul_of_nonneg_left htail (le_of_lt ha2)
        _ < (1 - c1 * t) * costFactor c1 ts :=
            mul_lt_mul_of_pos_right hhead hF1
    · have ht0e : t = 0 := le_antisymm (not_lt.mp ht) ht0
      have hsum2 : 0 < ts.sum := by
        rw [List.sum_cons, ht0e, zero_add] at hsum
        exact hsum
      rw [ht0e]
      simp only [mul_zero, sub_zero, one_mul]
      exact ih hbt hsum2

/-- Helper: the NAV tail is empty exactly for an empty row list. -/
theorem simNavs_eq_nil_iff (assets : List AssetSpec) (c : ℚ) (s : List ℚ)
    (rows : List SimRow) :
    simNavs assets c s rows = [] ↔ rows = [] := by
  cases rows <;> simp [simNavs]

/-- Helper: the last element of a cons is the last of a non-empty tail. -/
theorem getLast?_cons_ne (a : ℚ) (l : List ℚ) (h : l ≠ []) :
    (a :: l).getLast? = l.getLast? := by
  cases l with
  | nil => exact absurd rfl h
  | cons b t => exact List.getLast?_cons_cons

/-- Helper: every NAV of a zero-cost run from a valid state is positive. -/
theorem simNavs_zero_pos (assets : List AssetSpec) (hA : validAssets assets) :
    ∀ (rows : List SimRow) (s : List ℚ),
      (∀ row ∈ rows, validRow assets row) → validState assets s →
      ∀ v ∈ simNavs assets 0 s rows, 0 < v := by
  intro rows
  induction rows with
  | nil =>
    intro s _ _ v hv
    simp [simNavs] at hv
  | cons row rest ih =>
    intro s hrows hs v hv
    simp only [simNavs, List.mem_cons] at hv
    have hrow := hrows row (List.mem_cons_self _ _)
    rcases hv with rfl | hv2
    · rw [stepNav_zero]
      exact stepValuePre_pos assets s row hA.2.2 hrow hs
    · exact ih (stepShares assets 0 s row)
        (fun r hr => hrows r (List.mem_cons_of_mem _ hr))
        (stepShares_zero_valid assets s row hA hrow hs) v hv2

/-- Helper: every turnover of a zero-cost run lies in [0, 2]. -/
theorem simTaus_zero_bounds (assets : List AssetSpec) (hA : validAssets assets) :
    ∀ (rows : List SimRow) (s : List ℚ),
      (∀ row ∈ rows, validRow assets row) → validState assets s →
      ∀ t ∈ simTaus assets 0 s rows, 0 ≤ t ∧ t ≤ 2 := by
  intro rows
  induction rows with
  | nil =>
    intro s _ _ t ht
    simp [simTaus] at ht
  | cons row rest ih =>
    intro s hrows hs t ht
    have hrow := hrows row (List.mem_cons_self _ _)
    have hnext := ih (stepShares assets 0 s row)
      (fun r hr => hrows r (List.mem_cons_of_mem _ hr))
      (stepShares_zero_valid assets s row hA hrow hs)
    by_cases hreb : row.reb = true
    · simp only [simTaus, hreb, if_true, List.mem_cons] at ht
      rcases ht with rfl | ht2
      · exact stepTau_bounds assets s row hA hrow hs
      · exact hnext t ht2
    · have hrebf : row.reb = false := by
        cases hb : row.reb
        · rfl
        · exact absurd hb hreb
      simp only [simTaus, hrebf, if_false] at ht
      exact hnext t ht

/-- Helper: one-step unfolding of the turnover list at a rebalance row. -/
theorem simTaus_cons_reb (assets : List AssetSpec) (c : ℚ) (s : List ℚ)
    (row : SimRow) (rest : List SimRow) (h : row.reb = true) :
    simTaus assets c s (row :: rest) =
      stepTauVal assets s row ::
        simTaus assets c (stepShares assets c s row) rest := by
  simp only [simTaus]
  rw [if_pos h]

/-- Helper: one-step unfolding of the turnover list at a non-rebalance row. -/
theorem simTaus_cons_noreb (assets : List AssetSpec) (c : ℚ) (s : List ℚ)
    (row : SimRow) (rest : List SimRow) (h : row.reb = false) :
    simTaus assets c s (row :: rest) =
      simTaus assets c (stepShares assets c s row) rest := by
  simp only [simTaus]
  rw [if_neg (by rw [h]; exact Bool.false_ne_true)]

/-- Helper (the key invariant): against the same rows, a run at cost `c`
from a positively scaled state has exactly the turnover events of the
zero-cost run, and its last NAV is the zero-cost last NAV times the scale
and the cumulative cost factor. -/
theorem sim_cost_factor (assets : List AssetSpec) (c : ℚ)
    (hA : validAssets assets) (hc0 : 0 ≤ c) (hc : c < 1/2) :
    ∀ (rows : List SimRow) (s : List ℚ) (α : ℚ),
      (∀ row ∈ rows, validRow assets row) → validState assets s → 0 < α →
      simTaus assets c (s.map (fun x => α * x)) rows =
        simTaus assets 0 s rows ∧
      ∀ v0, (simNavs assets 0 s rows).getLast? = Option.some v0 →
        (simNavs assets c (s.map (fun x => α * x)) rows).getLast? =
          Option.some (α * costFactor c (simTaus assets 0 s rows) * v0) := by
  intro rows
  induction rows with
  | nil =>
    intro s α _ _ _
    refine ⟨rfl, ?_⟩
    intro v0 hv0
    simp [simNavs] at hv0
  | cons row rest ih =>
    intro s α hrows hs hα
    have hrow : validRow assets row := hrows row (List.mem_cons_self _ _)
    have hrest : ∀ r ∈ rest, validRow assets r :=
      fun r hr => hrows r (List.mem_cons_of_mem _ hr)
    have hs2 : validState assets (stepShares assets 0 s row) :=
      stepShares_zero_valid assets s row hA hrow hs
    have hτb := stepTau_bounds assets s row hA hrow hs
    have hcτ : c * stepTauVal assets s row < 1 := by
      have h1 : c * stepTauVal assets s row ≤ c * 2 :=
        mul_le_mul_of_nonneg_left hτb.2 hc0
      linarith
    by_cases hreb : row.reb = true
    · -- rebalance step: the scale picks up the factor (1 − c·τ)
      have hα2 : 0 < α * (1 - c * stepTauVal assets s row) :=
        mul_pos hα (by linarith)
      have hτc : stepTauVal assets (s.map (fun x => α * x)) row =
          stepTauVal assets s row := stepTau_map assets α hα s row
      have hnavc : stepNav assets c (s.map (fun x => α * x)) row =
          (α * (1 - c * stepTauVal assets s row)) *
            stepValuePre assets s row := by
        unfold stepNav
        rw [if_pos hreb, stepValuePre_map, hτc]
        ring
      have hsc : stepShares assets c (s.map (fun x => α * x)) row =
          (stepShares assets 0 s row).map
            (fun x => (α * (1 - c * stepTauVal assets s row)) * x) := by
        unfold stepShares
        rw [if_pos hreb, if_pos hreb, hnavc, stepNav_zero]
        exact allocate_map assets row.prices _ _
      obtain ⟨ihτ, ihnav⟩ := ih (stepShares assets 0 s row)
        (α * (1 - c * stepTauVal assets s row)) hrest hs2 hα2
      have htaus0 : simTaus assets 0 s (row :: rest) =
          stepTauVal assets s row ::
            simTaus assets 0 (stepShares assets 0 s row) rest :=
        simTaus_cons_reb assets 0 s row rest hreb
      have htaus : simTaus assets c (s.map (fun x => α * x)) (row :: rest) =
          simTaus assets 0 s (row :: rest) := by
        rw [simTaus_cons_reb assets c _ row rest hreb, htaus0, hτc, hsc, ihτ]
      refine ⟨htaus, ?_⟩
      intro v0 hv0
      simp only [simNavs] at hv0 ⊢
      rw [hsc]
      cases hrest0 : rest with
      | nil =>
        subst hrest0
        simp only [simNavs, List.getLast?_singleton, Option.some.injEq] at hv0 ⊢
        subst hv0
        rw [hnavc, stepNav_zero, htaus0, costFactor_cons]
        simp only [simTaus, costFactor, List.map_nil, List.prod_nil]
        ring
      | cons r2 rest2 =>
        subst hrest0
        have hne0 : simNavs assets 0 (stepShares assets 0 s row)
            (r2 :: rest2) ≠ [] := by
          rw [ne_eq, simNavs_eq_nil_iff]
          exact List.cons_ne_nil _ _
        have hnec : simNavs assets c
            ((stepShares assets 0 s row).map
              (fun x => (α * (1 - c * stepTauVal assets s row)) * x))
            (r2 :: rest2) ≠ [] := by
          rw [ne_eq, simNavs_eq_nil_iff]
          exact List.cons_ne_nil _ _
        rw [getLast?_cons_ne _ _ hne0] at hv0
        rw [getLast?_cons_ne _ _ hnec, ihnav v0 hv0, htaus0, costFactor_cons]
        simp only [Option.some.injEq]
        ring
    · -- no rebalance: the scale is unchanged
      have hrebf : row.reb = false := by
        cases hb : row.reb
        · rfl
        · exact absurd hb hreb
      have hnavc : stepNav assets c (s.map (fun x => α * x)) row =
          α * stepValuePre assets s row := by
        unfold stepNav
        rw [if_neg (by rw [hrebf]; exact Bool.false_ne_true), stepValuePre_map]
      have hnav0 : stepNav assets 0 s row = stepValuePre assets s row :=
        stepNav_zero assets s row
      have hsc : stepShares assets c (s.map (fun x => α * x)) row =
          (stepShares assets 0 s row).map (fun x => α * x) := by
        unfold stepShares
        rw [if_neg (by rw [hrebf]; exact Bool.false_ne_true),
          if_neg (by rw [hrebf]; exact Bool.false_ne_true)]
        exact applyDrag_map assets row.gap α s
      obtain ⟨ihτ, ihnav⟩ := ih (stepShares assets 0 s row) α hrest hs2 hα
      have htaus0 : simTaus assets 0 s (row :: rest) =
          simTaus assets 0 (stepShares assets 0 s row) rest :=
        simTaus_cons_noreb assets 0 s row rest hrebf
      have htaus : simTaus assets c (s.map (fun x => α * x)) (row :: rest) =
          simTaus assets 0 s (row :: rest) := by
        rw [simTaus_cons_noreb assets c _ row rest hrebf, htaus0, hsc, ihτ]
      refine ⟨htaus, ?_⟩
      intro v0 hv0
      simp only [simNavs] at hv0 ⊢
      rw [hsc]
      cases hrest0 : rest with
      | nil =>
        subst hrest0
        simp only [simNavs, List.getLast?_singleton, Option.some.injEq] at hv0 ⊢
        subst hv0
        rw [hnavc, hnav0, htaus0]
        simp only [simTaus, costFactor, List.map_nil, List.prod_nil]
        ring
      | cons r2 rest2 =>
        subst hrest0
        have hne0 : simNavs assets 0 (stepShares assets 0 s row)
            (r2 :: rest2) ≠ [] := by
          rw [ne_eq, simNavs_eq_nil_iff]
          exact List.cons_ne_nil _ _
        have hnec : simNavs assets c
            ((stepShares assets 0 s row).map (fun x => α * x))
            (r2 :: rest2) ≠ [] := by
          rw [ne_eq, simNavs_eq_nil_iff]
          exact List.cons_ne_nil _ _
        rw [getLast?_cons_ne _ _ hne0] at hv0
        rw [getLast?_cons_ne _ _ hnec, ihnav v0 hv0, htaus0]

/-- Helper: rows built from valid aligned data are valid. -/
theorem buildRows_valid (assets : List AssetSpec) (freq : RebalanceFreq) :
    ∀ (data : List (AlignedDate × List ℚ)) (prev : AlignedDate),
      (∀ e ∈ data, (e.2 : List ℚ).length = assets.length ∧ ∀ x ∈ e.2, 0 < x) →
      ∀ row ∈ buildRows freq prev data, validRow assets row := by
  intro data
  induction data with
  | nil =>
    intro prev _ row hrow
    simp [buildRows] at hrow
  | cons e rest ih =>
    intro prev hdata row hrow
    obtain ⟨d, ps⟩ := e
    simp only [buildRows, List.mem_cons] at hrow
    rcases hrow with rfl | hrow2
    · exact hdata (d, ps) (List.mem_cons_self _ _)
    · exact ih d (fun x hx => hdata x (List.mem_cons_of_mem _ hx)) row hrow2

/-- Claim C7: two simulations identical except for the transaction-cost
rate, with positive total turnover, order their final NAVs strictly
opposite to their cost rates: the higher cost ends strictly lower (in
particular any positive cost ends below cost 0). -/
theorem C7_higher_cost_strictly_lowers_final_nav
    (assets : List AssetSpec) (freq : RebalanceFreq) (reinvest : Bool)
    (V0 c1 c2 : ℚ) (d0 : AlignedDate) (p0 : List ℚ)
    (rest : List (AlignedDate × List ℚ))
    (hA : validAssets assets) (hV : 0 < V0)
    (hp0 : p0.length = assets.length) (hp0pos : ∀ x ∈ p0, 0 < x)
    (hrest : ∀ e ∈ rest, (e.2 : List ℚ).length = assets.length ∧ ∀ x ∈ e.2, 0 < x)
    (hc1 : 0 ≤ c1) (hc12 : c1 < c2) (hc2 : c2 < 1/2)
    (hturn : 0 < (runSimulation assets
        { initialInvestment := V0, frequency := freq, transactionCost := c1,
          reinvestDividends := reinvest } ((d0, p0) :: rest)).turnovers.sum) :
    finalNav (runSimulation assets
        { initialInvestment := V0, frequency := freq, transactionCost := c2,
          reinvestDividends := reinvest } ((d0, p0) :: rest)) <
      finalNav (runSimulation assets
        { initialInvestment := V0, frequency := freq, transactionCost := c1,
          reinvestDividends := reinvest } ((d0, p0) :: rest)) := by
  have hs0 : validState assets (allocate assets p0 V0) := by
    refine ⟨?_, ?_, ?_⟩
    · rw [allocate, List.length_zipWith, hp0]
      exact min_self _
    · exact allocate_nonneg assets p0 V0 hA.1
        (fun x hx => le_of_lt (hp0pos x hx)) (le_of_lt hV)
    · exact allocate_sum_pos assets p0 V0 hp0 hV hA.1 hp0pos
        (by rw [hA.2.1]; norm_num)
  have hrows : ∀ row ∈ buildRows freq d0 rest, validRow assets row :=
    buildRows_valid assets freq rest d0 hrest
  have hmap1 : (allocate assets p0 V0).map (fun x => (1 : ℚ) * x) =
      allocate assets p0 V0 := by
    simp
  have h1 := sim_cost_factor assets c1 hA hc1 (lt_trans hc12 hc2)
    (buildRows freq d0 rest) (allocate assets p0 V0) 1 hrows hs0 one_pos
  have h2 := sim_cost_factor assets c2 hA (le_trans hc1 (le_of_lt hc12)) hc2
    (buildRows freq d0 rest) (allocate assets p0 V0) 1 hrows hs0 one_pos
  rw [hmap1] at h1 h2
  obtain ⟨hτ1, hnav1⟩ := h1
  obtain ⟨hτ2, hnav2⟩ := h2
  have hturn0 : 0 < (simTaus assets 0 (allocate assets p0 V0)
      (buildRows freq d0 rest)).sum := by
    have hcast : (runSimulation assets
        { initialInvestment := V0, frequency := freq, transactionCost := c1,
          reinvestDividends := reinvest } ((d0, p0) :: rest)).turnovers =
        simTaus assets c1 (allocate assets p0 V0) (buildRows freq d0 rest) := rfl
    rw [hcast, hτ1] at hturn
    exact hturn
  have hbounds := simTaus_zero_bounds assets hA (buildRows freq d0 rest)
    (allocate assets p0 V0) hrows hs0
  have hF : costFactor c2 (simTaus assets 0 (allocate assets p0 V0)
        (buildRows freq d0 rest)) <
      costFactor c1 (simTaus assets 0 (allocate assets p0 V0)
        (buildRows freq d0 rest)) :=
    costFactor_lt c1 c2 _ hc1 hc12 hc2 hbounds hturn0
  cases hrows0 : buildRows freq d0 rest with
  | nil =>
    rw [hrows0] at hturn0
    simp [simTaus] at hturn0
  | cons r rs =>
    have hnavne : simNavs assets 0 (allocate assets p0 V0) (r :: rs) ≠ [] := by
      rw [ne_eq, simNavs_eq_nil_iff]
      exact List.cons_ne_nil _ _
    cases hlast : (simNavs assets 0 (allocate assets p0 V0) (r :: rs)).getLast? with
    | none =>
      rw [List.getLast?_eq_none_iff] at hlast
      exact absurd hlast hnavne
    | some v0 =>
      have hv0pos : 0 < v0 :=
        simNavs_zero_pos assets hA (r :: rs) (allocate assets p0 V0)
          (by rw [← hrows0]; exact hrows) hs0 v0
          (List.mem_of_mem_getLast? hlast)
      rw [hrows0] at hnav1 hnav2 hτ1 hτ2 hF
      have hfc1 := hnav1 v0 hlast
      have hfc2 := hnav2 v0 hlast
      have hne1 : simNavs assets c1 (allocate assets p0 V0) (r :: rs) ≠ [] := by
        rw [ne_eq, simNavs_eq_nil_iff]
        exact List.cons_ne_nil _ _
      have hne2 : simNavs assets c2 (allocate assets p0 V0) (r :: rs) ≠ [] := by
        rw [ne_eq, simNavs_eq_nil_iff]
        exact List.cons_ne_nil _ _
      have hfin1 : finalNav (runSimulation assets
          { initialInvestment := V0, frequency := freq, transactionCost := c1,
            reinvestDividends := reinvest } ((d0, p0) :: rest)) =
          1 * costFactor c1 (simTaus assets 0 (allocate assets p0 V0) (r :: rs)) * v0 := by
        have hcast : (runSimulation assets
            { initialInvestment := V0, frequency := freq, transactionCost := c1,
              reinvestDividends := reinvest } ((d0, p0) :: rest)).nav =
            dot (allocate assets p0 V0) p0 ::
              simNavs assets c1 (allocate assets p0 V0) (buildRows freq d0 rest) := rfl
        unfold finalNav
        rw [hcast, hrows0, getLast?_cons_ne _ _ hne1, hfc1]
        rfl
      have hfin2 : finalNav (runSimulation assets
          { initialInvestment := V0, frequency := freq, transactionCost := c2,
            reinvestDividends := reinvest } ((d0, p0) :: rest)) =
          1 * costFactor c2 (simTaus assets 0 (allocate assets p0 V0) (r :: rs)) * v0 := by
        have hcast : (runSimulation assets
            { initialInvestment := V0, frequency := freq, transactionCost := c2,
              reinvestDividends := reinvest } ((d0, p0) :: rest)).nav =
            dot (allocate assets p0 V0) p0 ::
              simNavs assets c2 (allocate assets p0 V0) (buildRows freq d0 rest) := rfl
        unfold finalNav
        rw [hcast, hrows0, getLast?_cons_ne _ _ hne2, hfc2]
        rfl
      rw [hfin1, hfin2]
      have := mul_lt_mul_of_pos_right hF hv0pos
      linarith

/-- A concrete two-asset portfolio used to witness C7. -/
def demoAssets : List AssetSpec :=
  [{ ticker := "A", weight := 1/2, ter := 0 },
   { ticker := "B", weight := 1/2, ter := 0 }]

/-- Witness for C7 at a concrete scenario: two equally weighted assets,
monthly rebalancing, diverging prices at the second date (turnover 1/3),
costs 0 versus 1%. -/
theorem C7_higher_cost_strictly_lowers_final_nav_witness :
    finalNav (runSimulation demoAssets
        { initialInvestment := 1000, frequency := .monthly,
          transactionCost := 1/100, reinvestDividends := true }
        [({ day := 0, month := 0 }, [1, 1]), ({ day := 1, month := 1 }, [2, 1])]) <
      finalNav (runSimulation demoAssets
        { initialInvestment := 1000, frequency := .monthly,
          transactionCost := 0, reinvestDividends := true }
        [({ day := 0, month := 0 }, [1, 1]), ({ day := 1, month := 1 }, [2, 1])]) :=
  C7_higher_cost_strictly_lowers_final_nav demoAssets .monthly true
    1000 0 (1/100) { day := 0, month := 0 } [1, 1]
    [({ day := 1, month := 1 }, [2, 1])]
    ⟨by
      intro a ha
      fin_cases ha <;> norm_num,
     by norm_num [rawWeightSum, demoAssets],
     by
      intro a ha
      fin_cases ha <;> norm_num⟩
    (by norm_num) rfl
    (by
      intro x hx
      fin_cases hx <;> norm_num)
    (by
      intro e he
      fin_cases he
      refine ⟨rfl, ?_⟩
      intro x hx
      fin_cases hx <;> norm_num)
    (le_refl 0) (by norm_num) (by norm_num)
    (by
      norm_num [runSimulation, simTaus, stepShares, stepNav, stepTauVal,
        stepValuePre, applyDrag, dragFactors, holdingsOf, turnoverOf,
        allocate, dot, buildRows, isRebalanceDate, periodKey, demoAssets])

end Backtester
